import Mathlib

/-!
Verification development for the pybline repository.

Strings of the Python source are modelled as `List Char`.  Each definition
below is a shallow embedding of one Python function from `src/pybline`
(its source file and line range are named in the doc comment), except for a
small number of definitions that are explicitly marked as modelled from the
specification because the corresponding code is not present under `src/`.
-/

namespace Pybline

/-- Whitespace characters stripped by the Python `str.strip()` method: the
full CPython space set (ASCII whitespace and separators, NEL, no-break
space, ogham space mark, the U+2000 to U+200A spaces, the line and paragraph
separators, narrow no-break space, medium mathematical space and ideographic
space). -/
def isPyWs (c : Char) : Bool :=
  c == ' ' || c == '\t' || c == '\n' || c == '\r' || c == '\x0b' || c == '\x0c' ||
  c == '\x1c' || c == '\x1d' || c == '\x1e' || c == '\x1f' || c == '\x85' ||
  c == '\xa0' || c == '\u1680' ||
  c == '\u2000' || c == '\u2001' || c == '\u2002' || c == '\u2003' ||
  c == '\u2004' || c == '\u2005' || c == '\u2006' || c == '\u2007' ||
  c == '\u2008' || c == '\u2009' || c == '\u200a' ||
  c == '\u2028' || c == '\u2029' || c == '\u202f' || c == '\u205f' ||
  c == '\u3000'

/-- Zero-width characters removed by `_trim_zwsp_and_whitespace`
(utils.py lines 139-149): ZWSP, ZWNJ, ZWJ, word joiner, BOM. -/
def isZw (c : Char) : Bool :=
  c == '\u200b' || c == '\u200c' || c == '\u200d' || c == '\u2060' || c == '\ufeff'

/-- Line-break characters recognized by Python `str.splitlines()`. -/
def isLb (c : Char) : Bool :=
  c == '\n' || c == '\r' || c == '\x0b' || c == '\x0c' ||
  c == '\x1c' || c == '\x1d' || c == '\x1e' || c == '\x85' ||
  c == '\u2028' || c == '\u2029'

/-- Python `str.strip(chars)`: remove the characters satisfying `p` from both
ends of the string. -/
def pyStripP (p : Char → Bool) (s : List Char) : List Char :=
  ((s.dropWhile p).reverse.dropWhile p).reverse

/-- Python `str.strip()` (no argument): strip whitespace from both ends. -/
def pyStripWs (s : List Char) : List Char :=
  pyStripP isPyWs s

/-- Python `str.lstrip()`: strip whitespace from the left end only. -/
def pyLStripWs (s : List Char) : List Char :=
  s.dropWhile isPyWs

/-- Python `str.splitlines()` (helper): accumulate the current line in `acc`
(reversed) and emit a line at each line break, treating CRLF as one break. -/
def pySplitlinesGo : List Char → List Char → List (List Char)
  | acc, [] => if acc.isEmpty then [] else [acc.reverse]
  | acc, c :: rest =>
      if isLb c then
        match rest with
        | [] => [acc.reverse]
        | d :: rest2 =>
            if c == '\r' && d == '\n' then acc.reverse :: pySplitlinesGo [] rest2
            else acc.reverse :: pySplitlinesGo [] (d :: rest2)
      else pySplitlinesGo (c :: acc) rest

/-- Python `str.splitlines()`. -/
def pySplitlines (s : List Char) : List (List Char) :=
  pySplitlinesGo [] s

/-- Prepend a character to the first piece of a split result. -/
def consHead (x : Char) : List (List Char) → List (List Char)
  | [] => [[x]]
  | p :: ps => (x :: p) :: ps

/-- Python `str.split(c)` for a single-character separator. -/
def splitChar (c : Char) : List Char → List (List Char)
  | [] => [[]]
  | x :: rest =>
      if x == c then [] :: splitChar c rest
      else consHead x (splitChar c rest)

/-- Python `str.split(" | ")`: split on the three-character separator
space-bar-space, leftmost-first and non-overlapping (utils.py lines 179
and 189 split header and data lines this way). -/
def splitBarSep : List Char → List (List Char)
  | [] => [[]]
  | [x] => [[x]]
  | [x, y] => [[x, y]]
  | x :: y :: z :: rest =>
      if x == ' ' && y == '|' && z == ' ' then [] :: splitBarSep rest
      else consHead x (splitBarSep (y :: z :: rest))

/-- Python `str.find(pat)` (first occurrence, as a character index), `none`
when the pattern does not occur. -/
def findSub (pat : List Char) : List Char → Option Nat
  | [] => if pat.isPrefixOf [] then some 0 else none
  | c :: t =>
      if pat.isPrefixOf (c :: t) then some 0
      else (findSub pat t).map (· + 1)

/-- Python `pat in s` (substring containment). -/
def containsSub (pat s : List Char) : Bool :=
  (findSub pat s).isSome

/-- Python `str.replace("\r\n", "\n")` (core.py line 41), leftmost-first and
non-overlapping. -/
def replaceCrlf : List Char → List Char
  | '\r' :: '\n' :: rest => '\n' :: replaceCrlf rest
  | c :: rest => c :: replaceCrlf rest
  | [] => []

/-- Join a list of lines with a newline between consecutive lines
(Python `"\n".join(lines)`). -/
def joinLn : List (List Char) → List Char
  | [] => []
  | l :: ls =>
      match ls with
      | [] => l
      | _ :: _ => l ++ '\n' :: joinLn ls

/-- A run of `n` spaces. -/
def spaces (n : Nat) : List Char :=
  List.replicate n ' '

/-- `_trim_zwsp_and_whitespace` (utils.py lines 129-152): remove every
zero-width character anywhere in the string, then strip whitespace. -/
def trim_zwsp_and_whitespace (s : List Char) : List Char :=
  pyStripWs (s.filter (fun c => !isZw c))

/-- The divider test of `text_to_df` (utils.py line 167): the stripped line
matches the regular expression carets-[+-]+-dollar, i.e. it is nonempty and
consists only of plus and minus characters. -/
def isDividerLine (l : List Char) : Bool :=
  let t := pyStripWs l
  !t.isEmpty && t.all (fun c => c == '+' || c == '-')

/-- Header-cell extraction of `text_to_df` (utils.py line 179):
`line.strip("| ").split(" | ")`, each cell trimmed. -/
def parseHeaderCells (line : List Char) : List (List Char) :=
  (splitBarSep (pyStripP (fun c => c == '|' || c == ' ') line)).map trim_zwsp_and_whitespace

/-- Data-cell extraction of `text_to_df` (utils.py line 189):
`line.strip("|").split(" | ")`, each cell trimmed. -/
def parseDataCells (line : List Char) : List (List Char) :=
  (splitBarSep (pyStripP (fun c => c == '|') line)).map trim_zwsp_and_whitespace

/-- Right-padding of short data rows with nulls (utils.py lines 190-191). -/
def padRow (h : List (List Char)) (row : List (Option (List Char))) :
    List (Option (List Char)) :=
  if row.length < h.length then row ++ List.replicate (h.length - row.length) none else row

/-- The line loop of `text_to_df` (utils.py lines 172-193), a state machine on
`(counter, header, processed)`.  The result is `none` when the Python code
would raise (taking the length of the still-unset header `None` in the data
branch). -/
def ttdLoop : List (List Char) → Nat → Option (List (List Char)) →
    List (List (Option (List Char))) →
    Option (Option (List (List Char)) × List (List (Option (List Char))))
  | [], _, header, processed => some (header, processed)
  | line :: rest, counter, header, processed =>
      if isDividerLine line && counter == 1 then ttdLoop rest 2 header processed
      else if counter == 2 then ttdLoop rest 3 (some (parseHeaderCells line)) processed
      else if isDividerLine line && counter == 3 then ttdLoop rest 4 header processed
      else if isDividerLine line && counter == 4 then ttdLoop rest 2 header processed
      else
        match header with
        | none => none
        | some h =>
            let row := padRow h ((parseDataCells line).map some)
            if row.length == h.length then ttdLoop rest counter header (processed ++ [row])
            else ttdLoop rest counter header processed

/-- Final per-cell normalization of `text_to_df` (utils.py lines 210-217):
`astype(str)` turns a padded null into the string None, zero-width characters
are removed, whitespace stripped, and the literal string None is converted to
a null. -/
def normCell : Option (List Char) → Option (List Char)
  | none => none
  | some s =>
      let t := trim_zwsp_and_whitespace s
      if t = "None".toList then none else some t

/-- A structured dataset: a header of column names and rows of nullable cell
values (the shape of the DataFrame built by `text_to_df`). -/
structure Df where
  header : List (List Char)
  rows : List (List (Option (List Char)))
deriving DecidableEq

/-- `text_to_df` (utils.py lines 155-219).  `none` models an uncaught Python
exception.  With no header and no retained rows the code builds an empty
frame with no columns; an empty frame skips the normalization block, so its
columns keep the loop-trimmed header.  A nonempty frame has its column names
re-trimmed; if the re-trimmed names repeat, the per-column loop's
`df[col].dtype` (utils.py line 211) selects a duplicated label, which yields
a DataFrame and raises AttributeError — modelled as `none`; otherwise every
string cell is normalized per `normCell`. -/
def text_to_df (output : List Char) : Option Df :=
  let lines := pySplitlines (pyStripWs output)
  match ttdLoop lines 1 none [] with
  | none => none
  | some (none, processed) => if processed.isEmpty then some ⟨[], []⟩ else none
  | some (some h, processed) =>
      if processed.isEmpty then some ⟨h, []⟩
      else
        let h2 := h.map trim_zwsp_and_whitespace
        if h2.Nodup then some ⟨h2, processed.map (fun r => r.map normCell)⟩ else none

/-- The zero-width space inserted by `clean_out` (utils.py line 438). -/
def zwsp : Char := '\u200b'

/-- Row parsing of `clean_out` (utils.py lines 447-451): split on the bar,
keep lines yielding at least three fields, drop the outer fields and strip
each inner cell. -/
def rowCellsOut (ln : List Char) : Option (List (List Char)) :=
  let cells := splitChar '|' ln
  if 3 ≤ cells.length then some (((cells.drop 1).dropLast).map pyStripWs) else none

/-- Column-width computation of `clean_out` (utils.py lines 459-479): the
maximum of the header-cell length and all data-cell lengths in the column. -/
def colWidth (headers : List (List Char)) (data : List (List (List Char))) (i : Nat) : Nat :=
  data.foldl (fun m r => max m ((r.getD i []).length)) ((headers.getD i []).length)

/-- One column segment of the separator line of `clean_out` (utils.py
line 486, with the default extra right pad of one). -/
def sepPiece (w : Nat) : List Char :=
  List.replicate (w + 2 + 1) '-' ++ ['+']

/-- Separator line of `clean_out` (utils.py lines 486-488). -/
def sepLineOut (widths : List Nat) : List Char :=
  '+' :: (widths.map sepPiece).flatten

/-- One centered header cell piece of `clean_out` (utils.py lines 500-507),
with the defaults: centered, zero-width space inserted, extra right pad 1. -/
def hPiece (w : Nat) (cell : List Char) : List Char :=
  let base := w - cell.length
  let li := base / 2
  let ri := base - li + 1
  ' ' :: (spaces li ++ cell ++ (if 0 < ri && !cell.isEmpty then [zwsp] else []) ++
    spaces ri ++ [' ', '|'])

/-- One left-aligned data cell piece of `clean_out` (utils.py lines 508-513). -/
def dPiece (w : Nat) (cell : List Char) : List Char :=
  let rp := (w - cell.length) + 1
  ' ' :: (cell ++ (if 0 < rp && !cell.isEmpty then [zwsp] else []) ++
    spaces rp ++ [' ', '|'])

/-- Header row of `clean_out` (utils.py lines 491-515, header branch). -/
def formatRowH (widths : List Nat) (cells : List (List Char)) : List Char :=
  '|' :: (List.zipWith hPiece widths cells).flatten

/-- Data row of `clean_out` (utils.py lines 491-515, data branch). -/
def formatRowD (widths : List Nat) (cells : List (List Char)) : List Char :=
  '|' :: (List.zipWith dPiece widths cells).flatten

/-- `clean_out` (utils.py lines 423-528) with its default arguments.  The
result is `none` when the Python code would raise: a parsed row whose cell
count differs from the header makes the vectorized width computation (or the
final row join, whose formatter returns `None` for such a row) fail. -/
def clean_out (output : List Char) : Option (List Char) :=
  let lines := (pySplitlines output).filter
    (fun ln => match pyLStripWs ln with | '|' :: _ => true | _ => false)
  if lines.isEmpty then some [] else
  match lines.filterMap rowCellsOut with
  | [] => some []
  | headers :: data =>
      let cols := headers.length
      if data.any (fun r => r.length != cols) then none
      else
        let widths := (List.range cols).map (colWidth headers data)
        let sep := sepLineOut widths
        some (joinLn ([sep, formatRowH widths headers, sep] ++
          data.map (formatRowD widths) ++ [sep]))

/-- The literal prefix of the remote-prompt pattern of `extract_query_output`
(core.py line 44). -/
def promptPrefixPat : List Char := "0: jdbc:".toList

/-- Index of the last occurrence of a character in a string. -/
def lastIdxOf (c : Char) (l : List Char) : Option Nat :=
  match l.reverse.findIdx? (fun x => x == c) with
  | some j => some (l.length - 1 - j)
  | none => none

/-- Match of the line-anchored regular expression of core.py line 44 against
one line: the line starts with the jdbc prompt prefix, followed by at least
one character and then a greater-than sign.  The greedy match ends after the
last greater-than sign of the line (which sits at index at least 9, the
prefix itself containing none).  Returns the end offset of the match within
the line. -/
def promptMatchEnd (l : List Char) : Option Nat :=
  if promptPrefixPat.isPrefixOf l then
    match lastIdxOf '>' l with
    | some j => if 9 ≤ j then some (j + 1) else none
    | none => none
  else none

/-- Scan of `re.search` with a multiline caret anchor: try the pattern at the
start of every newline-delimited line, left to right, returning the end
offset of the first (leftmost) match in the whole string. -/
def findPromptEndGo (off : Nat) : List (List Char) → Option Nat
  | [] => none
  | l :: rest =>
      match promptMatchEnd l with
      | some e => some (off + e)
      | none => findPromptEndGo (off + l.length + 1) rest

/-- End offset of the first prompt-line match in the whole string
(core.py line 44). -/
def findPromptEnd (s : List Char) : Option Nat :=
  findPromptEndGo 0 (splitChar '\n' s)

/-- Steps 0 and 1 of `extract_query_output` (core.py lines 41-46): normalize
line endings, then, when a prompt line matches, drop everything up to the end
of the first match and strip the remainder. -/
def preprocess (output : List Char) : List Char :=
  let o := replaceCrlf output
  match findPromptEnd o with
  | some e => pyStripWs (o.drop e)
  | none => o

/-- Dashed-border test of core.py lines 54, 56 and 59: the stripped line
starts with a plus and the raw line contains a minus. -/
def isBorderLine (l : List Char) : Bool :=
  (match pyStripWs l with | '+' :: _ => true | _ => false) && l.contains '-'

/-- The middle line of the opening pattern: stripped line starts with a bar
(core.py line 55). -/
def startsBarStripped (l : List Char) : Bool :=
  match pyStripWs l with | '|' :: _ => true | _ => false

/-- The three-line table-opening condition of core.py lines 54-56. -/
def openingAt (a b c : List Char) : Bool :=
  isBorderLine a && startsBarStripped b && isBorderLine c

/-- Forward scan of core.py lines 53-57: the first index whose three-line
window satisfies `openingAt`. -/
def findTableStartGo (k : Nat) : List (List Char) → Option Nat
  | a :: b :: c :: rest =>
      if openingAt a b c then some k else findTableStartGo (k + 1) (b :: c :: rest)
  | _ => none

/-- Forward scan of core.py lines 53-57 over the whole line list. -/
def findTableStart (lines : List (List Char)) : Option Nat :=
  findTableStartGo 0 lines

/-- Index of the last dashed-border line of a line list. -/
def findLastBorder : List (List Char) → Option Nat
  | [] => none
  | a :: rest =>
      match findLastBorder rest with
      | some k => some (k + 1)
      | none => if isBorderLine a then some 0 else none

/-- Backward scan of core.py lines 58-61: the last dashed-border index
strictly greater than `i` (the code walks j from the end down to i+1 and
stops at the first border it meets). -/
def findTableEnd (lines : List (List Char)) (i : Nat) : Option Nat :=
  (findLastBorder (lines.drop (i + 1))).map (fun k => i + 1 + k)

/-- Row-count pattern of core.py line 69 (`re.match`, so anchored at the
start of the stripped line): digits then one whitespace then rows selected,
or the literal No rows selected, or the literal 1 row selected. -/
def isRowsLine (t : List Char) : Bool :=
  (let ds := t.takeWhile Char.isDigit
   !ds.isEmpty &&
     (match t.drop ds.length with
      | c :: rest => isPyWs c && "rows selected".toList.isPrefixOf rest
      | [] => false)) ||
  "No rows selected".toList.isPrefixOf t ||
  "1 row selected".toList.isPrefixOf t

/-- Scan of core.py lines 67-71: the first stripped line after the table end
matching the row-count pattern, else the empty string. -/
def findRowsLine : List (List Char) → List Char
  | [] => []
  | l :: rest => if isRowsLine (pyStripWs l) then pyStripWs l else findRowsLine rest

/-- Truncation before a marker (core.py lines 79-81): keep the prefix up to
the first occurrence of the pattern, or the whole string if absent. -/
def cutBefore (pat s : List Char) : List Char :=
  match findSub pat s with
  | some c => s.take c
  | none => s

/-- The literal error marker of core.py line 76. -/
def errorMarker : List Char := "Error:".toList

/-- The literal parser-banner marker of core.py line 79. -/
def carbonMarker : List Char := "== Carbon Parser:".toList

/-- Steps 3 and 4 of `extract_query_output` (core.py lines 75-85): the error
span from the first Error: marker truncated before the Carbon-parser banner,
or the whole trimmed text. -/
def errOrRest (o : List Char) : List Char × List Char :=
  match findSub errorMarker o with
  | some e => (pyStripWs (cutBefore carbonMarker (o.drop e)), [])
  | none => (pyStripWs o, [])

/-- Table branch of `extract_query_output` (core.py lines 65-73): join the
line slice, re-render it with `clean_out`, strip, and pair it with the
row-count line found after the closing border. -/
def tableBranch (lines : List (List Char)) (i j : Nat) : Option (List Char × List Char) :=
  let tbl := joinLn ((lines.drop i).take (j - i + 1))
  match clean_out tbl with
  | some ct => some (pyStripWs ct, findRowsLine (lines.drop (j + 1)))
  | none => none

/-- `extract_query_output` (core.py lines 40-85).  `none` models an uncaught
Python exception (only possible inside `clean_out` on a malformed table). -/
def extract_query_output (output : List Char) : Option (List Char × List Char) :=
  let o := preprocess output
  let lines := pySplitlines o
  match findTableStart lines with
  | some i =>
      match findTableEnd lines i with
      | some j => if i < j then tableBranch lines i j else some (errOrRest o)
      | none => some (errOrRest o)
  | none => some (errOrRest o)

/-- Skip phrases of `clean_output` (ssh.py lines 65-68). -/
def skipPhrases : List (List Char) :=
  ["Last login:", "Authorized users only.", "Password:",
   "su - root", "$source", "$kinit", "paas@", "[root@"].map String.toList

/-- `clean_output` (ssh.py lines 58-78): strip, split on newlines, drop every
line containing a skip phrase (or the stripped command), and re-join. -/
def clean_output (output : List Char) (command : Option (List Char)) : List Char :=
  let lines := splitChar '\n' (pyStripWs output)
  let skip := skipPhrases ++ (match command with | some c => [pyStripWs c] | none => [])
  joinLn (lines.filter (fun l => !(skip.any (fun ph => containsSub ph l))))

/-- The default completion marker of `run_shell_blocking` (ssh.py line 143). -/
def completeMarker : List Char := "__COMPLETE__".toList

/-- Receive loop of `run_shell_blocking` (ssh.py lines 167-174): append each
arriving chunk to the accumulated output and stop early as soon as one chunk
contains the marker; the chunk list is the sequence of reads that complete
before the wall-clock budget expires. -/
def rsbLoop (chunks : List (List Char)) (acc : List Char) : List Char :=
  match chunks with
  | [] => acc
  | ch :: rest =>
      let acc2 := acc ++ ch
      if containsSub completeMarker ch then acc2 else rsbLoop rest acc2

/-- `run_shell_blocking` (ssh.py lines 143-181), abstracted over the sequence
of received chunks: after the loop, raise (error) when the marker is absent
from the accumulated output, otherwise return the cleaned output. -/
def run_shell_blocking (command : List Char) (chunks : List (List Char)) :
    Except (List Char) (List Char) :=
  let output := rsbLoop chunks []
  if containsSub completeMarker output then Except.ok (clean_output output (some command))
  else Except.error "Shell command may not have completed fully.".toList

/-- Identifier characters for whole-token keyword matching (letters, digits,
underscore). -/
def isIdentChar (c : Char) : Bool :=
  c.isAlphanum || c == '_'

/-- Fuel-driven tokenizer splitting a command into maximal identifier runs. -/
def sqlTokensGo : Nat → List Char → List (List Char)
  | 0, _ => []
  | _ + 1, [] => []
  | n + 1, c :: rest =>
      if isIdentChar c then
        (c :: rest.takeWhile isIdentChar) :: sqlTokensGo n (rest.dropWhile isIdentChar)
      else sqlTokensGo n rest

/-- The maximal identifier runs of a command string, in order. -/
def sqlTokens (s : List Char) : List (List Char) :=
  sqlTokensGo s.length s

/-- Python `str.upper()` on the characters used here. -/
def pyUpper (s : List Char) : List Char :=
  s.map Char.toUpper

/-- Modelled from the spec: the default dangerous keyword list of
`is_dangerous_sql`.  The function itself is imported by core.py line 11 from
pybline/utils.py but its definition is absent from the sources; the
configuration example file lists the enabled default keywords DROP, DELETE,
TRUNCATE, GRANT, REVOKE, EXECUTE and EXEC. -/
def dangerousKeywords : List (List Char) :=
  ["DROP", "DELETE", "TRUNCATE", "GRANT", "REVOKE", "EXECUTE", "EXEC"].map String.toList

/-- Modelled from the spec: `is_dangerous_sql` (spec section 4.5), whose
definition is absent from the sources.  A pure classifier that reports
whether the command contains one of the configured keywords as a whole
case-insensitive token (not as a substring of a longer identifier).  The
spec also allows configurable regular-expression patterns; the default
pattern set is likewise absent from the sources and, per the spec's stated
expectations for the default configuration, flags none of the commands
considered here, so it is modelled as empty. -/
def is_dangerous_sql (sql : List Char) : Bool :=
  let toks := (sqlTokens sql).map pyUpper
  dangerousKeywords.any (fun kw => toks.contains kw)

/-- Join cells with the three-character separator space-bar-space. -/
def joinSep : List (List Char) → List Char
  | [] => []
  | c :: cs =>
      match cs with
      | [] => c
      | _ :: _ => c ++ ' ' :: '|' :: ' ' :: joinSep cs

/-- A dashed border line of a canonically rendered bordered table. -/
def tableBorder : List Char := "+--+".toList

/-- One bordered table row: bar, space, the cells joined with
space-bar-space, space, bar. -/
def renderRowB (cells : List (List Char)) : List Char :=
  '|' :: ' ' :: (joinSep cells ++ [' ', '|'])

/-- Modelled from the spec (section 3, Bordered Table Text): a well-formed
bordered table text for a header and data rows — a border line, a header
line of bar-delimited cells, a border line, the data lines, and a closing
border line. -/
def renderBordered (header : List (List Char)) (rows : List (List (List Char))) : List Char :=
  joinLn ([tableBorder, renderRowB header, tableBorder] ++ rows.map renderRowB ++ [tableBorder])

/-- A clean cell value: nonempty, free of bars, line breaks and zero-width
characters, and with no whitespace at either end (i.e. already trimmed). -/
def cleanCell (c : List Char) : Bool :=
  !c.isEmpty &&
  c.all (fun x => x != '|' && !isLb x && !isZw x) &&
  !isPyWs (c.headD '.') && !isPyWs (c.getLastD '.')

/-- Expected cell normalization of a parsed dataset: the literal string None
becomes a null, everything else survives. -/
def nullNone (c : List Char) : Option (List Char) :=
  if c = "None".toList then none else some c

/-- Concrete transcript with two prompt lines (for the prompt-scan claim). -/
def promptTwiceTranscript : List Char :=
  "0: jdbc:x>a\n0: jdbc:y>b".toList

/-- Concrete table text with a header of three columns and data rows of two,
three and four cells (for the padding claim). -/
def paddingTable : List Char :=
  "+---+---+---+\n| a | b | c |\n+---+---+---+\n| 1 | 2 |\n| 4 | 5 | 6 |\n| 7 | 8 | 9 | 10 |\n+---+---+---+".toList

/-- Concrete table text whose only data cell is the literal None preceded by
a zero-width space (for the null-normalization claim). -/
def noneCellTable : List Char :=
  "+------+\n| v |\n+------+\n| \u200bNone |\n+------+".toList

/-- Concrete table text preceded by a non-border line (for the leading-noise
claim). -/
def noisyTable : List Char :=
  "noise\n+---+\n| a |\n+---+\n| 1 |\n+---+".toList

/-- The spec's example error transcript. -/
def errorTranscript : List Char :=
  "...\nError: Table not found\n== Carbon Parser: ...\n".toList

/-- The spec's example single-column table transcript. -/
def singleColTranscript : List Char :=
  "+----+\n| id |\n+----+\n| 1  |\n+----+\n1 row selected".toList

/-- The re-rendered form of the spec's single-column table, as produced by
`clean_out` (zero-width spaces after each cell). -/
def singleColCleaned : List Char :=
  "+-----+\n| id\u200b  |\n+-----+\n| 1\u200b   |\n+-----+".toList

/-- Concrete transcript whose table is preceded by a junk line (for the
table-branch reachability claim). -/
def junkThenTable : List Char :=
  "junk\n+--+\n| x |\n+--+".toList

/-- C2: on a transcript with two prompt lines, `extract_query_output` removes
only the text up to the end of the FIRST prompt match (`re.search` returns
the leftmost match), so the text before the last prompt line — including the
second prompt line itself — is retained, contradicting the removal of
everything up to the last prompt line. -/
theorem extract_query_output_keeps_text_before_last_prompt :
    extract_query_output promptTwiceTranscript = some ("a\n0: jdbc:y>b".toList, []) ∧
    containsSub "0: jdbc:y>".toList "a\n0: jdbc:y>b".toList = true := by
  constructor
  · rfl
  · rfl

/-- C5 (counterexample): on input whose first line is a non-border line,
`text_to_df` does not return a dataset — the data-row branch runs with the
header still unset and the Python code raises. -/
theorem text_to_df_leading_noise_not_ignored :
    text_to_df noisyTable = none := by
  rfl

/-- C7: on the spec's single-column transcript, `extract_query_output`
returns the re-rendered single-column table (which parses back to header id
with the single data row 1) and the row summary 1 row selected. -/
theorem extract_query_output_single_column :
    extract_query_output singleColTranscript = some (singleColCleaned, "1 row selected".toList) ∧
    text_to_df singleColCleaned = some ⟨["id".toList], [[some "1".toList]]⟩ := by
  constructor
  · rfl
  · rfl

/-- C8: under the default configuration the dangerous-operation guard flags
DROP TABLE x and GRANT ALL ON x TO y, does not flag SELECT * FROM x, and
does not flag a command whose only occurrence of a keyword is inside the
longer identifier dropzone (matching is whole-token). -/
theorem is_dangerous_sql_default_config :
    is_dangerous_sql "DROP TABLE x".toList = true ∧
    is_dangerous_sql "GRANT ALL ON x TO y".toList = true ∧
    is_dangerous_sql "SELECT * FROM x".toList = false ∧
    is_dangerous_sql "SELECT * FROM dropzone".toList = false := by
  refine ⟨rfl, rfl, rfl, rfl⟩

/-- C5 (amended): a non-border first line is not skipped — with the header
still unset, the data-row branch of the line loop fails, so `text_to_df`
returns no dataset at all. -/
theorem text_to_df_fails_on_leading_nonborder (output l : List Char)
    (rest : List (List Char))
    (hlines : pySplitlines (pyStripWs output) = l :: rest)
    (hl : isDividerLine l = false) :
    text_to_df output = none := by
  simp [text_to_df, hlines, ttdLoop, hl]

/-- Closed instance of the amended leading-noise behavior. -/
theorem text_to_df_fails_on_leading_nonborder_witness :
    text_to_df "hello".toList = none :=
  text_to_df_fails_on_leading_nonborder "hello".toList "hello".toList []
    (by rfl) (by rfl)

/-- C3: a data row shorter than the header is right-padded with nulls to the
header length and kept, a row of exactly header length is kept unchanged, a
longer row is dropped; with a three-column header, rows of two, three and
four cells behave accordingly on the concrete table. -/
theorem text_to_df_pads_short_drops_long :
    (∀ (h : List (List Char)) (row : List (Option (List Char))),
        row.length < h.length →
        padRow h row = row ++ List.replicate (h.length - row.length) none ∧
        (padRow h row).length = h.length) ∧
    (∀ (h : List (List Char)) (row : List (Option (List Char))),
        row.length = h.length → padRow h row = row) ∧
    (∀ (rest : List (List Char)) (line : List Char) (h : List (List Char))
        (processed : List (List (Option (List Char)))),
        isDividerLine line = false → h.length < (parseDataCells line).length →
        ttdLoop (line :: rest) 4 (some h) processed = ttdLoop rest 4 (some h) processed) ∧
    text_to_df paddingTable = some ⟨["a".toList, "b".toList, "c".toList],
      [[some "1".toList, some "2".toList, none],
       [some "4".toList, some "5".toList, some "6".toList]]⟩ := by
  refine ⟨?_, ?_, ?_, rfl⟩
  · intro h row hlt
    refine ⟨by simp [padRow, hlt], ?_⟩
    simp [padRow, hlt]
    omega
  · intro h row heq
    simp [padRow, heq]
  · intro rest line h processed hdiv hlen
    have hnl : ¬ ((parseDataCells line).length < h.length) := by omega
    have hrow : (padRow h ((parseDataCells line).map some)).length ≠ h.length := by
      simp [padRow, hnl]
      omega
    simp [ttdLoop, hdiv, hrow]

/-- Closed instance of the padding behavior at a three-column header and a
two-cell row. -/
theorem text_to_df_pads_short_drops_long_witness :
    padRow ["a".toList, "b".toList, "c".toList] [some "1".toList, some "2".toList] =
      [some "1".toList, some "2".toList] ++ List.replicate 1 none ∧
    (padRow ["a".toList, "b".toList, "c".toList] [some "1".toList, some "2".toList]).length = 3 :=
  text_to_df_pads_short_drops_long.1 ["a".toList, "b".toList, "c".toList]
    [some "1".toList, some "2".toList] (by decide)

/-- A normalized cell is never the literal string None. -/
theorem normCell_ne_none_string (c : Option (List Char)) :
    normCell c ≠ some ("None".toList) := by
  cases c with
  | none => simp [normCell]
  | some s =>
      simp only [normCell]
      split
      · simp
      · simp_all

/-- C4: a retained cell whose value trims (zero-width characters removed,
whitespace stripped) to the literal None is stored as a true null; no cell
of any dataset returned by `text_to_df` is the string None; and the concrete
table whose only cell is None (with a zero-width space) parses to a null. -/
theorem text_to_df_none_literal_is_null :
    (∀ s, trim_zwsp_and_whitespace s = "None".toList → normCell (some s) = none) ∧
    (∀ (output : List Char) (df : Df), text_to_df output = some df →
        ∀ r ∈ df.rows, ∀ c ∈ r, c ≠ some ("None".toList)) ∧
    text_to_df noneCellTable = some ⟨["v".toList], [[none]]⟩ := by
  refine ⟨?_, ?_, rfl⟩
  · intro s hs
    simp [normCell, hs]
  · intro output df h r hr c hc
    simp only [text_to_df] at h
    split at h
    · exact absurd h (by simp)
    · split at h
      · cases h
        simp at hr
      · exact absurd h (by simp)
    · split at h
      · cases h
        simp at hr
      · split at h
        · cases h
          simp only at hr
          obtain ⟨r0, hr0, rfl⟩ := List.mem_map.mp hr
          obtain ⟨c0, hc0, rfl⟩ := List.mem_map.mp hc
          exact normCell_ne_none_string c0
        · exact absurd h (by simp)

/-- Closed instance of the None-to-null normalization. -/
theorem text_to_df_none_literal_is_null_witness :
    normCell (some " \u200bNone ".toList) = none :=
  text_to_df_none_literal_is_null.1 " \u200bNone ".toList (by rfl)

/-- C6: when no three-line opening pattern exists and the Error: marker does,
`extract_query_output` returns the trimmed span from the first Error: to just
before the Carbon-parser banner (or the end), with an empty rows summary. -/
theorem extract_query_output_error_span (output : List Char) (e : Nat)
    (hnt : findTableStart (pySplitlines (preprocess output)) = none)
    (he : findSub errorMarker (preprocess output) = some e) :
    extract_query_output output =
      some (pyStripWs (cutBefore carbonMarker ((preprocess output).drop e)),
        ([] : List Char)) := by
  simp only [extract_query_output, hnt, errOrRest, he]

/-- Closed instance of the error-span extraction at the spec's example
transcript. -/
theorem extract_query_output_error_span_witness :
    extract_query_output errorTranscript = some ("Error: Table not found".toList, ([] : List Char)) :=
  (extract_query_output_error_span errorTranscript 4 (by rfl) (by rfl)).trans (by rfl)

/-- A substring of the tail is a substring of the whole. -/
theorem containsSub_cons (pat : List Char) (c : Char) (t : List Char)
    (h : containsSub pat t = true) : containsSub pat (c :: t) = true := by
  simp only [containsSub, findSub]
  split
  · rfl
  · simpa [containsSub] using h

/-- A substring of the right part is a substring of an append. -/
theorem containsSub_append_right (pat s t : List Char)
    (h : containsSub pat t = true) : containsSub pat (s ++ t) = true := by
  induction s with
  | nil => simpa using h
  | cons c s ih => exact containsSub_cons pat c (s ++ t) ih

/-- A prefix stays a prefix after appending on the right. -/
theorem isPrefixOf_append_right (pat s t : List Char)
    (h : pat.isPrefixOf s = true) : pat.isPrefixOf (s ++ t) = true := by
  rw [List.isPrefixOf_iff_prefix] at h ⊢
  exact h.trans (List.prefix_append s t)

/-- A substring of the left part is a substring of an append. -/
theorem containsSub_append_left (pat s t : List Char)
    (h : containsSub pat s = true) : containsSub pat (s ++ t) = true := by
  induction s with
  | nil =>
      have hp : pat.isPrefixOf ([] : List Char) = true := by
        by_cases hq : pat.isPrefixOf ([] : List Char) = true
        · exact hq
        · simp only [containsSub, findSub, if_neg hq] at h
          exact absurd h (by simp)
      have hpt : pat = [] := by
        rw [List.isPrefixOf_iff_prefix] at hp
        simpa using hp
      subst hpt
      cases t with
      | nil => rfl
      | cons c t2 => rfl
  | cons c s ih =>
      simp only [containsSub, findSub] at h ⊢
      split at h
      · next hp =>
          have hp2 : pat.isPrefixOf (c :: (s ++ t)) = true := by
            simpa using isPrefixOf_append_right pat (c :: s) t hp
          simp [hp2]
      · next hp =>
          split
          · rfl
          · have h2 : (findSub pat s).isSome = true := by simpa using h
            simpa using ih h2

/-- The marker is in the output accumulated by the receive loop exactly when
it is in the concatenation of all chunks (early exit only happens when the
marker is already present). -/
theorem rsbLoop_marker (chunks : List (List Char)) (acc : List Char) :
    containsSub completeMarker (rsbLoop chunks acc) =
      containsSub completeMarker (acc ++ chunks.flatten) := by
  induction chunks generalizing acc with
  | nil => simp [rsbLoop]
  | cons ch rest ih =>
      simp only [rsbLoop, List.flatten_cons]
      split
      · next hch =>
          rw [containsSub_append_right _ _ _ hch]
          rw [containsSub_append_right _ acc _ (containsSub_append_left _ _ _ hch)]
      · next hch =>
          rw [ih (acc ++ ch), List.append_assoc]

/-- C9: `run_shell_blocking` raises exactly when the completion marker never
appears in the accumulated output (the concatenation of every chunk received
within the wait budget); whenever the marker does appear, it returns the
cleaned output without raising. -/
theorem run_shell_blocking_requires_marker (command : List Char) (chunks : List (List Char)) :
    ((run_shell_blocking command chunks).isOk = false ↔
        containsSub completeMarker chunks.flatten = false) ∧
    (containsSub completeMarker chunks.flatten = true →
        run_shell_blocking command chunks =
          Except.ok (clean_output (rsbLoop chunks []) (some command))) := by
  have hm : containsSub completeMarker (rsbLoop chunks []) =
      containsSub completeMarker chunks.flatten := by
    simpa using rsbLoop_marker chunks []
  constructor
  · simp only [run_shell_blocking]
    split
    · next h =>
        rw [hm] at h
        simp [h, Except.isOk, Except.toBool]
    · next h =>
        rw [hm] at h
        simp only [Bool.not_eq_true] at h
        simp [h, Except.isOk, Except.toBool]
  · intro hc
    simp only [run_shell_blocking]
    rw [hm] at *
    simp [hc]

/-- Closed instance of the marker-present path of `run_shell_blocking`. -/
theorem run_shell_blocking_requires_marker_witness :
    run_shell_blocking "ls".toList ["x__COMPLETE__y".toList] =
      Except.ok (clean_output (rsbLoop ["x__COMPLETE__y".toList] []) (some "ls".toList)) :=
  (run_shell_blocking_requires_marker "ls".toList ["x__COMPLETE__y".toList]).2 (by rfl)

/-- Spec of the forward table scan: a successful scan exposes the three-line
opening window at the returned index. -/
theorem findTableStartGo_spec (ls : List (List Char)) :
    ∀ k i, findTableStartGo k ls = some i →
      k ≤ i ∧ ∃ a b c rest, ls.drop (i - k) = a :: b :: c :: rest ∧ openingAt a b c = true := by
  induction ls with
  | nil => intro k i h; simp [findTableStartGo] at h
  | cons a ls ih =>
      intro k i h
      cases ls with
      | nil => simp [findTableStartGo] at h
      | cons b ls2 =>
          cases ls2 with
          | nil => simp [findTableStartGo] at h
          | cons c rest =>
              rw [findTableStartGo] at h
              split at h
              · next hopen =>
                  cases h
                  exact ⟨Nat.le_refl _, a, b, c, rest, by simp, hopen⟩
              · next hopen =>
                  obtain ⟨hk, a2, b2, c2, rest2, hdrop, hop⟩ := ih (k + 1) i h
                  refine ⟨by omega, a2, b2, c2, rest2, ?_, hop⟩
                  have hik : i - k = (i - (k + 1)) + 1 := by omega
                  rw [hik]
                  simpa [List.drop_succ_cons] using hdrop

/-- When the last-border scan fails, no line of the list is a border. -/
theorem findLastBorder_none (ls : List (List Char)) (h : findLastBorder ls = none) :
    ∀ x ∈ ls, isBorderLine x = false := by
  induction ls with
  | nil => simp
  | cons a rest ih =>
      intro x hx
      rw [findLastBorder] at h
      cases hfb : findLastBorder rest with
      | some k => rw [hfb] at h; cases h
      | none =>
          rw [hfb] at h
          by_cases hba : isBorderLine a = true
          · rw [if_pos hba] at h
            cases h
          · rcases List.mem_cons.mp hx with rfl | hx2
            · simpa using hba
            · exact ih hfb x hx2

/-- A list containing a border line has a last border. -/
theorem findLastBorder_isSome (ls : List (List Char)) (x : List Char)
    (hx : x ∈ ls) (hb : isBorderLine x = true) : (findLastBorder ls).isSome = true := by
  cases hfb : findLastBorder ls with
  | some k => rfl
  | none => exact absurd hb (by simp [findLastBorder_none ls hfb x hx])

/-- C10: whenever the forward scan finds a three-line opening pattern at `i`,
the backward scan finds a closing border strictly after `i` (the border at
`i + 2` guarantees it), so `extract_query_output` always returns through the
table branch in that case — the error-span and verbatim-fallback branches are
reachable only when no opening pattern exists. -/
theorem extract_query_output_table_branch (output : List Char) (i : Nat)
    (hs : findTableStart (pySplitlines (preprocess output)) = some i) :
    ∃ j, findTableEnd (pySplitlines (preprocess output)) i = some j ∧ i < j ∧
      extract_query_output output = tableBranch (pySplitlines (preprocess output)) i j := by
  obtain ⟨hk, a, b, c, rest, hdrop, hop⟩ :=
    findTableStartGo_spec (pySplitlines (preprocess output)) 0 i hs
  simp only [Nat.sub_zero] at hdrop
  have hcb : isBorderLine c = true := by
    simp only [openingAt, Bool.and_eq_true] at hop
    exact hop.2
  have hdrop1 : (pySplitlines (preprocess output)).drop (i + 1) = b :: c :: rest := by
    have h2 := List.drop_drop 1 i (pySplitlines (preprocess output))
    rw [hdrop] at h2
    simpa using h2.symm
  have hsome := findLastBorder_isSome ((pySplitlines (preprocess output)).drop (i + 1)) c
    (by rw [hdrop1]; simp) hcb
  obtain ⟨k, hk2⟩ := Option.isSome_iff_exists.mp hsome
  have hij : i < i + 1 + k := by omega
  refine ⟨i + 1 + k, by simp [findTableEnd, hk2], hij, ?_⟩
  simp [extract_query_output, hs, findTableEnd, hk2, hij]

/-- Closed instance of the table-branch reachability on a transcript with a
junk line before the table. -/
theorem extract_query_output_table_branch_witness :
    ∃ j, findTableEnd (pySplitlines (preprocess junkThenTable)) 1 = some j ∧ 1 < j ∧
      extract_query_output junkThenTable =
        tableBranch (pySplitlines (preprocess junkThenTable)) 1 j :=
  extract_query_output_table_branch junkThenTable 1 (by rfl)

/-- A clean cell is nonempty. -/
theorem cleanCell_ne_nil {c : List Char} (h : cleanCell c = true) : c ≠ [] := by
  simp only [cleanCell, Bool.and_eq_true, Bool.not_eq_true'] at h
  intro hc
  rw [hc] at h
  simp at h

/-- Characters of a clean cell are not bars, line breaks, or zero-width. -/
theorem cleanCell_mem {c : List Char} (h : cleanCell c = true) {x : Char} (hx : x ∈ c) :
    x ≠ '|' ∧ isLb x = false ∧ isZw x = false := by
  simp only [cleanCell, Bool.and_eq_true, List.all_eq_true] at h
  have := h.1.1.2 x hx
  simp only [Bool.and_eq_true, bne_iff_ne, Bool.not_eq_true'] at this
  exact ⟨this.1.1, this.1.2, this.2⟩

/-- A clean cell starts with a non-whitespace character. -/
theorem cleanCell_head {c : List Char} (h : cleanCell c = true) :
    ∃ d cs, c = d :: cs ∧ isPyWs d = false := by
  obtain ⟨d, cs, rfl⟩ := List.exists_cons_of_ne_nil (cleanCell_ne_nil h)
  refine ⟨d, cs, rfl, ?_⟩
  simp only [cleanCell, Bool.and_eq_true, Bool.not_eq_true'] at h
  simpa using h.1.2

/-- A clean cell, reversed, starts with a non-whitespace character. -/
theorem cleanCell_rev_head {c : List Char} (h : cleanCell c = true) :
    ∃ e es, c.reverse = e :: es ∧ isPyWs e = false := by
  have hne : c.reverse ≠ [] := by
    simpa using cleanCell_ne_nil h
  obtain ⟨e, es, he⟩ := List.exists_cons_of_ne_nil hne
  refine ⟨e, es, he, ?_⟩
  have hlast : c.getLastD '.' = e := by
    have h1 : c.getLastD '.' = c.reverse.headD '.' := by
      rw [List.getLastD_eq_getLast?, List.getLast?_eq_head?_reverse, ← List.headD_eq_head?_getD]
    rw [h1, he]
    rfl
  simp only [cleanCell, Bool.and_eq_true, Bool.not_eq_true'] at h
  rw [← hlast]
  exact h.2

/-- Dropping while `p` holds skips a block of characters all satisfying `p`. -/
theorem dropWhile_append_all {p : Char → Bool} {u v : List Char}
    (hu : ∀ x ∈ u, p x = true) : (u ++ v).dropWhile p = v.dropWhile p := by
  induction u with
  | nil => rfl
  | cons a u ih =>
      rw [List.cons_append, List.dropWhile_cons, if_pos (hu a (by simp))]
      exact ih (fun x hx => hu x (by simp [hx]))

/-- Every character of a run of spaces is a space. -/
theorem mem_spaces {n : Nat} {x : Char} (hx : x ∈ spaces n) : x = ' ' := by
  simpa [spaces] using (List.mem_replicate.mp hx).2

/-- A filter keeping everything is the identity. -/
theorem filter_not_isZw_eq_self {s : List Char} (h : ∀ x ∈ s, isZw x = false) :
    s.filter (fun c => !isZw c) = s :=
  List.filter_eq_self.mpr (fun a ha => by simp [h a ha])

/-- Trimming a clean cell padded with leading spaces and with trailing spaces
or zero-width characters yields the bare cell. -/
theorem trim_pad {c : List Char} (hc : cleanCell c = true) {a : Nat} {zs : List Char}
    (hzs : ∀ x ∈ zs, x = ' ' ∨ isZw x = true) :
    trim_zwsp_and_whitespace (spaces a ++ c ++ zs) = c := by
  obtain ⟨d, cs, hdc, hd⟩ := cleanCell_head hc
  obtain ⟨e, es, hee, he⟩ := cleanCell_rev_head hc
  have hzfilter : (spaces a ++ c ++ zs).filter (fun x => !isZw x) =
      spaces a ++ c ++ zs.filter (fun x => !isZw x) := by
    rw [List.filter_append, List.filter_append]
    rw [filter_not_isZw_eq_self (fun x hx => by simp [mem_spaces hx, isZw]),
      filter_not_isZw_eq_self (fun x hx => (cleanCell_mem hc hx).2.2)]
  have hzs2 : ∀ x ∈ zs.filter (fun x => !isZw x), x = ' ' := by
    intro x hx
    rcases List.mem_filter.mp hx with ⟨hmem, hnz⟩
    rcases hzs x hmem with h1 | h1
    · exact h1
    · simp [h1] at hnz
  unfold trim_zwsp_and_whitespace pyStripWs pyStripP
  rw [hzfilter]
  have hfront : (spaces a ++ c ++ zs.filter (fun x => !isZw x)).dropWhile isPyWs =
      c ++ zs.filter (fun x => !isZw x) := by
    rw [List.append_assoc, dropWhile_append_all (fun x hx => by simp [mem_spaces hx, isPyWs])]
    rw [hdc, List.cons_append, List.dropWhile_cons, if_neg (by simp [hd])]
  rw [hfront]
  have hback : (c ++ zs.filter (fun x => !isZw x)).reverse.dropWhile isPyWs = c.reverse := by
    rw [List.reverse_append,
      dropWhile_append_all (fun x hx => by
        have := hzs2 x (by simpa using hx)
        simp [this, isPyWs])]
    rw [hee, List.dropWhile_cons, if_neg (by simp [he]), ← hee]
  rw [hback, List.reverse_reverse]

/-- Splitting a bar-free string yields the string as the single piece. -/
theorem splitBarSep_barFree {s : List Char} (h : ∀ x ∈ s, x ≠ '|') :
    splitBarSep s = [s] := by
  induction s with
  | nil => rfl
  | cons x t ih =>
      cases t with
      | nil => rfl
      | cons y u =>
          cases u with
          | nil => rfl
          | cons z rest =>
              rw [splitBarSep]
              have hy : (y == '|') = false := by
                simp [h y (by simp)]
              rw [if_neg (by simp [hy])]
              rw [ih (fun x hx => h x (by simp [hx]))]
              rfl

/-- Splitting a bar-free piece followed by the separator peels off the piece. -/
theorem splitBarSep_sep_append {p : List Char} (h : ∀ x ∈ p, x ≠ '|') (t : List Char) :
    splitBarSep (p ++ ' ' :: '|' :: ' ' :: t) = p :: splitBarSep t := by
  induction p with
  | nil =>
      rw [List.nil_append, splitBarSep, if_pos (by simp)]
  | cons c p ih =>
      have hc : (c == '|') = false := by simp [h c (by simp)]
      cases p with
      | nil =>
          rw [List.cons_append, List.nil_append, splitBarSep]
          rw [if_neg (by simp)]
          rw [List.nil_append] at ih
          rw [ih (by simp)]
          rfl
      | cons d p2 =>
          have hd : (d == '|') = false := by simp [h d (by simp)]
          obtain ⟨e, v, hev⟩ : ∃ e v, p2 ++ ' ' :: '|' :: ' ' :: t = e :: v := by
            cases p2 <;> exact ⟨_, _, rfl⟩
          rw [List.cons_append, List.cons_append, hev, splitBarSep]
          rw [if_neg (by simp [hd])]
          rw [← hev, ← List.cons_append, ih (fun x hx => h x (by simp [hx]))]
          rfl

/-- Splitting a separator-free string on a character yields a single piece. -/
theorem splitChar_free {ch : Char} {s : List Char} (h : ∀ x ∈ s, x ≠ ch) :
    splitChar ch s = [s] := by
  induction s with
  | nil => rfl
  | cons x t ih =>
      rw [splitChar, if_neg (by simp [h x (by simp)])]
      rw [ih (fun x hx => h x (by simp [hx]))]
      rfl

/-- Splitting a separator-free piece followed by the separator peels it off. -/
theorem splitChar_sep_append {ch : Char} {p : List Char} (h : ∀ x ∈ p, x ≠ ch)
    (t : List Char) : splitChar ch (p ++ ch :: t) = p :: splitChar ch t := by
  induction p with
  | nil =>
      rw [List.nil_append, splitChar, if_pos (by simp)]
  | cons c p ih =>
      rw [List.cons_append, splitChar, if_neg (by simp [h c (by simp)])]
      rw [ih (fun x hx => h x (by simp [hx]))]
      rfl

/-- The separator-join of a nonempty tail. -/
theorem joinSep_cons (p : List Char) {ps : List (List Char)} (h : ps ≠ []) :
    joinSep (p :: ps) = p ++ ' ' :: '|' :: ' ' :: joinSep ps := by
  cases ps with
  | nil => exact absurd rfl h
  | cons q qs => rfl

/-- Characters of a padded clean cell are never bars. -/
theorem padded_barFree {c : List Char} (hc : cleanCell c = true) {a : Nat} {zs : List Char}
    (hzs : ∀ x ∈ zs, x = ' ' ∨ isZw x = true) :
    ∀ x ∈ spaces a ++ c ++ zs, x ≠ '|' := by
  intro x hx
  rcases List.mem_append.mp hx with hx1 | hx2
  · rcases List.mem_append.mp hx1 with hx3 | hx4
    · simp [mem_spaces hx3]
    · exact (cleanCell_mem hc hx4).1
  · rcases hzs x hx2 with h1 | h1
    · simp [h1]
    · intro hbar
      rw [hbar] at h1
      simp [isZw] at h1

/-- Splitting a separator-join of space-and-zero-width padded clean cells on
the separator and trimming each piece recovers exactly the cells. -/
theorem map_trim_splitBarSep_join (cs : List (List Char)) :
    ∀ (pads : List (Nat × List Char)), pads.length = cs.length → cs ≠ [] →
      (∀ c ∈ cs, cleanCell c = true) →
      (∀ pz ∈ pads, ∀ x ∈ pz.2, x = ' ' ∨ isZw x = true) →
      (splitBarSep (joinSep
          (List.zipWith (fun pz c => spaces pz.1 ++ c ++ pz.2) pads cs))).map
        trim_zwsp_and_whitespace = cs := by
  induction cs with
  | nil => intro pads _ hne _ _; exact absurd rfl hne
  | cons c cs ih =>
      intro pads hlen hne hclean hpads
      cases pads with
      | nil => simp at hlen
      | cons pz pads =>
          have hc := hclean c (by simp)
          have hbf := padded_barFree hc (a := pz.1) (hpads pz (by simp))
          cases cs with
          | nil =>
              cases pads with
              | nil =>
                  rw [show joinSep (List.zipWith (fun pz c => spaces pz.1 ++ c ++ pz.2) [pz] [c]) =
                    spaces pz.1 ++ c ++ pz.2 from rfl]
                  rw [splitBarSep_barFree hbf]
                  simp only [List.map_cons, List.map_nil]
                  rw [trim_pad hc (hpads pz (by simp))]
              | cons pz2 pads2 => simp at hlen
          | cons c2 cs2 =>
              cases pads with
              | nil => simp at hlen
              | cons pz2 pads2 =>
                  rw [List.zipWith_cons_cons]
                  rw [joinSep_cons _ (by simp)]
                  rw [splitBarSep_sep_append hbf]
                  rw [List.map_cons]
                  rw [trim_pad hc (hpads pz (by simp))]
                  rw [ih (pz2 :: pads2) (by simpa using hlen) (by simp)
                    (fun x hx => hclean x (by simp [hx]))
                    (fun q hq => hpads q (by simp [hq]))]

/-- A separator-join with a trailing space is a padded separator-join. -/
theorem joinSep_pad_right (cs : List (List Char)) (hne : cs ≠ []) :
    ∃ pads : List (Nat × List Char), pads.length = cs.length ∧
      (∀ pz ∈ pads, ∀ x ∈ pz.2, x = ' ' ∨ isZw x = true) ∧
      joinSep cs ++ [' '] =
        joinSep (List.zipWith (fun pz c => spaces pz.1 ++ c ++ pz.2) pads cs) := by
  induction cs with
  | nil => exact absurd rfl hne
  | cons c cs ih =>
      cases cs with
      | nil =>
          refine ⟨[(0, [' '])], rfl, ?_, ?_⟩
          · intro pz hpz x hx
            simp only [List.mem_singleton] at hpz
            subst hpz
            simp only [List.mem_singleton] at hx
            exact Or.inl hx
          · simp [joinSep, spaces]
      | cons c2 cs2 =>
          obtain ⟨pads0, hlen0, hok0, heq0⟩ := ih (by simp)
          obtain ⟨pz0, pads1, hp0⟩ := List.exists_cons_of_ne_nil
            (show pads0 ≠ [] by intro hnil; rw [hnil] at hlen0; simp at hlen0)
          refine ⟨(0, ([] : List Char)) :: pads0, by simpa using hlen0, ?_, ?_⟩
          · intro pz hpz x hx
            rcases List.mem_cons.mp hpz with rfl | hmem
            · simp at hx
            · exact hok0 pz hmem x hx
          · conv_lhs => rw [joinSep_cons c (by simp)]
            rw [List.zipWith_cons_cons]
            rw [joinSep_cons _ (show List.zipWith
              (fun pz c => spaces pz.1 ++ c ++ pz.2) pads0 (c2 :: cs2) ≠ [] from by
                rw [hp0]; simp)]
            rw [← heq0]
            simp [spaces]

/-- A separator-join with a leading and a trailing space is a padded
separator-join. -/
theorem joinSep_pad_both (cs : List (List Char)) (hne : cs ≠ []) :
    ∃ pads : List (Nat × List Char), pads.length = cs.length ∧
      (∀ pz ∈ pads, ∀ x ∈ pz.2, x = ' ' ∨ isZw x = true) ∧
      ' ' :: (joinSep cs ++ [' ']) =
        joinSep (List.zipWith (fun pz c => spaces pz.1 ++ c ++ pz.2) pads cs) := by
  cases cs with
  | nil => exact absurd rfl hne
  | cons c cs =>
      cases cs with
      | nil =>
          refine ⟨[(1, [' '])], rfl, ?_, ?_⟩
          · intro pz hpz x hx
            simp only [List.mem_singleton] at hpz
            subst hpz
            simp only [List.mem_singleton] at hx
            exact Or.inl hx
          · simp [joinSep, spaces, List.replicate]
      | cons c2 cs2 =>
          obtain ⟨pads0, hlen0, hok0, heq0⟩ := joinSep_pad_right (c2 :: cs2) (by simp)
          obtain ⟨pz0, pads1, hp0⟩ := List.exists_cons_of_ne_nil
            (show pads0 ≠ [] by intro hnil; rw [hnil] at hlen0; simp at hlen0)
          refine ⟨(1, ([] : List Char)) :: pads0, by simpa using hlen0, ?_, ?_⟩
          · intro pz hpz x hx
            rcases List.mem_cons.mp hpz with rfl | hmem
            · simp at hx
            · exact hok0 pz hmem x hx
          · conv_lhs => rw [joinSep_cons c (by simp)]
            rw [List.zipWith_cons_cons]
            rw [joinSep_cons _ (show List.zipWith
              (fun pz c => spaces pz.1 ++ c ++ pz.2) pads0 (c2 :: cs2) ≠ [] from by
                rw [hp0]; simp)]
            rw [← heq0]
            simp [spaces, List.replicate]

/-- A bare separator-join is a (trivially) padded separator-join. -/
theorem joinSep_pad_none (cs : List (List Char)) (hne : cs ≠ []) :
    ∃ pads : List (Nat × List Char), pads.length = cs.length ∧
      (∀ pz ∈ pads, ∀ x ∈ pz.2, x = ' ' ∨ isZw x = true) ∧
      joinSep cs =
        joinSep (List.zipWith (fun pz c => spaces pz.1 ++ c ++ pz.2) pads cs) := by
  induction cs with
  | nil => exact absurd rfl hne
  | cons c cs ih =>
      cases cs with
      | nil =>
          refine ⟨[(0, ([] : List Char))], rfl, ?_, by simp [joinSep, spaces]⟩
          intro pz hpz x hx
          simp only [List.mem_singleton] at hpz
          subst hpz
          simp at hx
      | cons c2 cs2 =>
          obtain ⟨pads0, hlen0, hok0, heq0⟩ := ih (by simp)
          obtain ⟨pz0, pads1, hp0⟩ := List.exists_cons_of_ne_nil
            (show pads0 ≠ [] by intro hnil; rw [hnil] at hlen0; simp at hlen0)
          refine ⟨(0, ([] : List Char)) :: pads0, by simpa using hlen0, ?_, ?_⟩
          · intro pz hpz x hx
            rcases List.mem_cons.mp hpz with rfl | hmem
            · simp at hx
            · exact hok0 pz hmem x hx
          · conv_lhs => rw [joinSep_cons c (by simp)]
            rw [List.zipWith_cons_cons]
            rw [joinSep_cons _ (show List.zipWith
              (fun pz c => spaces pz.1 ++ c ++ pz.2) pads0 (c2 :: cs2) ≠ [] from by
                rw [hp0]; simp)]
            rw [← heq0]
            simp [spaces]

/-- The separator-join of clean cells starts with the first cell's first
character, which is neither whitespace nor a bar. -/
theorem joinSep_head {r : List (List Char)} (hne : r ≠ [])
    (hclean : ∀ c ∈ r, cleanCell c = true) :
    ∃ d t, joinSep r = d :: t ∧ isPyWs d = false ∧ d ≠ '|' := by
  obtain ⟨c, cs, rfl⟩ := List.exists_cons_of_ne_nil hne
  have hc := hclean c (by simp)
  obtain ⟨d, c2, hdc, hd⟩ := cleanCell_head hc
  have hdb : d ≠ '|' := (cleanCell_mem hc (by rw [hdc]; simp)).1
  cases cs with
  | nil => exact ⟨d, c2, by rw [show joinSep [c] = c from rfl, hdc], hd, hdb⟩
  | cons c3 cs3 =>
      refine ⟨d, c2 ++ ' ' :: '|' :: ' ' :: joinSep (c3 :: cs3), ?_, hd, hdb⟩
      rw [joinSep_cons c (by simp), hdc]
      rfl

/-- The reversed separator-join of clean cells starts with the last cell's
last character, which is neither whitespace nor a bar. -/
theorem joinSep_rev_head {r : List (List Char)} (hne : r ≠ [])
    (hclean : ∀ c ∈ r, cleanCell c = true) :
    ∃ e t, (joinSep r).reverse = e :: t ∧ isPyWs e = false ∧ e ≠ '|' := by
  induction r with
  | nil => exact absurd rfl hne
  | cons c cs ih =>
      have hc := hclean c (by simp)
      cases cs with
      | nil =>
          obtain ⟨e, es, hee, he⟩ := cleanCell_rev_head hc
          have heb : e ≠ '|' := by
            have : e ∈ c := by
              rw [← List.mem_reverse, hee]
              simp
            exact (cleanCell_mem hc this).1
          exact ⟨e, es, by rw [show joinSep [c] = c from rfl, hee], he, heb⟩
      | cons c2 cs2 =>
          obtain ⟨e, t, het, he, heb⟩ := ih (by simp) (fun x hx => hclean x (by simp [hx]))
          refine ⟨e, t ++ [' ', '|', ' '] ++ c.reverse, ?_, he, heb⟩
          rw [joinSep_cons c (by simp)]
          rw [show (c ++ ' ' :: '|' :: ' ' :: joinSep (c2 :: cs2)) =
            c ++ [' ', '|', ' '] ++ joinSep (c2 :: cs2) from by simp]
          rw [List.reverse_append, List.reverse_append, het]
          simp

/-- Stripping bars from a canonically rendered row leaves the cells joined
with a leading and trailing space. -/
theorem stripBar_renderRowB (r : List (List Char)) :
    pyStripP (fun c => c == '|') (renderRowB r) = ' ' :: (joinSep r ++ [' ']) := by
  have hf : (renderRowB r).dropWhile (fun c => c == '|') =
      ' ' :: (joinSep r ++ [' ', '|']) := by
    unfold renderRowB
    rw [List.dropWhile_cons, if_pos (by simp), List.dropWhile_cons, if_neg (by simp)]
  have h2 : (' ' :: (joinSep r ++ [' ', '|'])).reverse =
      '|' :: ' ' :: ((joinSep r).reverse ++ [' ']) := by
    simp
  have hb : (' ' :: (joinSep r ++ [' ', '|'])).reverse.dropWhile (fun c => c == '|') =
      ' ' :: ((joinSep r).reverse ++ [' ']) := by
    rw [h2, List.dropWhile_cons, if_pos (by simp), List.dropWhile_cons, if_neg (by simp)]
  unfold pyStripP
  rw [hf, hb]
  simp

/-- Stripping bars and spaces from a canonically rendered row of clean cells
leaves exactly the separator-join of the cells. -/
theorem stripBarSpace_renderRowB {r : List (List Char)} (hne : r ≠ [])
    (hclean : ∀ c ∈ r, cleanCell c = true) :
    pyStripP (fun c => c == '|' || c == ' ') (renderRowB r) = joinSep r := by
  obtain ⟨d, t, hdt, hd, hdb⟩ := joinSep_head hne hclean
  obtain ⟨e, u, heu, he, heb⟩ := joinSep_rev_head hne hclean
  have hdws : (d == ' ') = false := by
    by_contra hcon
    simp only [Bool.not_eq_false, beq_iff_eq] at hcon
    rw [hcon] at hd
    simp [isPyWs] at hd
  have hews : (e == ' ') = false := by
    by_contra hcon
    simp only [Bool.not_eq_false, beq_iff_eq] at hcon
    rw [hcon] at he
    simp [isPyWs] at he
  have hdbb : (d == '|') = false := by simp [hdb]
  have hebb : (e == '|') = false := by simp [heb]
  have hf : (renderRowB r).dropWhile (fun c => c == '|' || c == ' ') =
      joinSep r ++ [' ', '|'] := by
    unfold renderRowB
    rw [List.dropWhile_cons, if_pos (by simp), List.dropWhile_cons, if_pos (by simp)]
    rw [hdt, List.cons_append, List.dropWhile_cons, if_neg (by simp [hdbb, hdws])]
  have h2 : (joinSep r ++ [' ', '|']).reverse = '|' :: ' ' :: (joinSep r).reverse := by
    simp
  have hb : (joinSep r ++ [' ', '|']).reverse.dropWhile (fun c => c == '|' || c == ' ') =
      (joinSep r).reverse := by
    rw [h2, List.dropWhile_cons, if_pos (by simp), List.dropWhile_cons, if_pos (by simp)]
    rw [heu, List.dropWhile_cons, if_neg (by simp [hebb, hews]), ← heu]
  unfold pyStripP
  rw [hf, hb]
  simp

/-- Parsing the data cells of a canonically rendered row of clean cells
recovers exactly the cells. -/
theorem parseDataCells_renderRowB {r : List (List Char)} (hne : r ≠ [])
    (hclean : ∀ c ∈ r, cleanCell c = true) :
    parseDataCells (renderRowB r) = r := by
  unfold parseDataCells
  rw [stripBar_renderRowB]
  obtain ⟨pads, hlen, hok, heq⟩ := joinSep_pad_both r hne
  rw [heq]
  exact map_trim_splitBarSep_join r pads hlen hne hclean hok

/-- Parsing the header cells of a canonically rendered row of clean cells
recovers exactly the cells. -/
theorem parseHeaderCells_renderRowB {r : List (List Char)} (hne : r ≠ [])
    (hclean : ∀ c ∈ r, cleanCell c = true) :
    parseHeaderCells (renderRowB r) = r := by
  unfold parseHeaderCells
  rw [stripBarSpace_renderRowB hne hclean]
  obtain ⟨pads, hlen, hok, heq⟩ := joinSep_pad_none r hne
  rw [heq]
  exact map_trim_splitBarSep_join r pads hlen hne hclean hok

/-- The canonical border line is a divider. -/
theorem isDividerLine_tableBorder : isDividerLine tableBorder = true := by rfl

/-- A canonically rendered row is not a divider (its stripped form starts
with a bar). -/
theorem not_divider_renderRowB (r : List (List Char)) :
    isDividerLine (renderRowB r) = false := by
  have hf : (renderRowB r).dropWhile isPyWs = renderRowB r := by
    unfold renderRowB
    rw [List.dropWhile_cons, if_neg (by simp [isPyWs])]
  have h2 : (renderRowB r).reverse = '|' :: ' ' :: ((joinSep r).reverse ++ [' ', '|']) := by
    unfold renderRowB
    simp
  have hb : (renderRowB r).reverse.dropWhile isPyWs = (renderRowB r).reverse := by
    rw [h2, List.dropWhile_cons, if_neg (by simp [isPyWs])]
  have hself : pyStripWs (renderRowB r) = renderRowB r := by
    unfold pyStripWs pyStripP
    rw [hf, hb]
    simp
  unfold isDividerLine
  rw [hself]
  unfold renderRowB
  simp

/-- Parsed cells of a row line have the row's length. -/
theorem parseDataCells_length {r : List (List Char)} (hne : r ≠ [])
    (hclean : ∀ c ∈ r, cleanCell c = true) :
    (parseDataCells (renderRowB r)).length = r.length := by
  rw [parseDataCells_renderRowB hne hclean]

/-- The splitlines scanner crosses a break-free block by accumulating it. -/
theorem pySplitlinesGo_append {l : List Char} (hl : ∀ x ∈ l, isLb x = false) :
    ∀ (acc s : List Char), pySplitlinesGo acc (l ++ s) = pySplitlinesGo (l.reverse ++ acc) s := by
  induction l with
  | nil => intro acc s; rfl
  | cons c l ih =>
      intro acc s
      have hc := hl c (by simp)
      have hcr : c ≠ '\r' := by
        rintro rfl
        simp [isLb] at hc
      have step : pySplitlinesGo acc (c :: (l ++ s)) = pySplitlinesGo (c :: acc) (l ++ s) := by
        rw [pySplitlinesGo.eq_def]
        simp only []
        rw [if_neg (by simp [hc])]
      rw [List.cons_append, step, ih (fun x hx => hl x (by simp [hx]))]
      simp

/-- The splitlines scanner emits the accumulator at a newline. -/
theorem pySplitlinesGo_newline (acc s : List Char) :
    pySplitlinesGo acc ('\n' :: s) = acc.reverse :: pySplitlinesGo [] s := by
  rw [pySplitlinesGo.eq_def]
  simp only []
  rw [if_pos (by rfl)]
  rcases s with _ | ⟨d, rest⟩
  · rfl
  · have hne : ('\n' == '\r') = false := by decide
    simp only []
    rw [if_neg (by simp [hne])]

/-- Splitting a newline-join of nonempty break-free lines recovers the
lines. -/
theorem pySplitlines_joinLn :
    ∀ (lines : List (List Char)), lines ≠ [] →
      (∀ l ∈ lines, l ≠ [] ∧ ∀ x ∈ l, isLb x = false) →
      pySplitlines (joinLn lines) = lines := by
  intro lines
  induction lines with
  | nil => intro h _; exact absurd rfl h
  | cons l ls ih =>
      intro _ hall
      obtain ⟨hlne, hlfree⟩ := hall l (by simp)
      cases ls with
      | nil =>
          unfold pySplitlines
          rw [show joinLn [l] = l from rfl]
          rw [show l = l ++ [] from by simp, pySplitlinesGo_append hlfree]
          rw [show pySplitlinesGo (l.reverse ++ []) [] =
            if (l.reverse ++ []).isEmpty then [] else [(l.reverse ++ []).reverse] from rfl]
          rw [if_neg (by simpa using hlne)]
          simp
      | cons l2 ls2 =>
          unfold pySplitlines
          rw [show joinLn (l :: l2 :: ls2) = l ++ '\n' :: joinLn (l2 :: ls2) from rfl]
          rw [pySplitlinesGo_append hlfree]
          rw [pySplitlinesGo_newline]
          have h5 : (l.reverse ++ ([] : List Char)).reverse = l := by simp
          rw [h5]
          have h6 := ih (by simp) (fun x hx => hall x (by simp [hx]))
          unfold pySplitlines at h6
          rw [h6]

/-- A strip is the identity when neither end satisfies the predicate. -/
theorem pyStripP_eq_self {p : Char → Bool} {s : List Char}
    (hf : s.dropWhile p = s) (hb : s.reverse.dropWhile p = s.reverse) :
    pyStripP p s = s := by
  unfold pyStripP
  rw [hf, hb]
  simp

/-- The newline-join of a nonempty line list extends its first line. -/
theorem joinLn_head (l : List Char) (ls : List (List Char)) :
    ∃ t, joinLn (l :: ls) = l ++ t := by
  cases ls with
  | nil => exact ⟨[], by simp [joinLn]⟩
  | cons l2 ls2 => exact ⟨'\n' :: joinLn (l2 :: ls2), rfl⟩

/-- The reversed newline-join of a line list ending in `l` extends the
reversed `l`. -/
theorem joinLn_last_rev (l : List Char) :
    ∀ (ls : List (List Char)), ∃ t, (joinLn (ls ++ [l])).reverse = l.reverse ++ t := by
  intro ls
  induction ls with
  | nil => exact ⟨[], by simp [joinLn]⟩
  | cons a ls ih =>
      obtain ⟨t, ht⟩ := ih
      refine ⟨t ++ '\n' :: a.reverse, ?_⟩
      have hcons : joinLn (a :: (ls ++ [l])) = a ++ '\n' :: joinLn (ls ++ [l]) := by
        rcases hsh : ls ++ [l] with _ | ⟨b, bs⟩
        · simp at hsh
        · rfl
      rw [List.cons_append, hcons, List.reverse_append, List.reverse_cons, ht]
      simp

/-- Trimming a clean cell is the identity. -/
theorem trim_of_clean {c : List Char} (hc : cleanCell c = true) :
    trim_zwsp_and_whitespace c = c := by
  have h0 : c = spaces 0 ++ c ++ [] := by simp [spaces]
  conv_lhs => rw [h0]
  exact trim_pad hc (by simp)

/-- Normalizing a parsed clean cell replaces the literal None with a null and
keeps everything else. -/
theorem normCell_some_clean {c : List Char} (hc : cleanCell c = true) :
    normCell (some c) = nullNone c := by
  unfold normCell nullNone
  simp only []
  rw [trim_of_clean hc]

/-- Re-trimming a list of clean cells is the identity. -/
theorem mapTrim_clean {cs : List (List Char)} (h : ∀ c ∈ cs, cleanCell c = true) :
    cs.map trim_zwsp_and_whitespace = cs := by
  induction cs with
  | nil => rfl
  | cons c cs ih =>
      rw [List.map_cons, trim_of_clean (h c (by simp)),
        ih (fun x hx => h x (by simp [hx]))]

/-- Characters of a separator-join come from the separator or from a cell. -/
theorem mem_joinSep {r : List (List Char)} {x : Char} (hx : x ∈ joinSep r) :
    x = ' ' ∨ x = '|' ∨ ∃ c ∈ r, x ∈ c := by
  induction r with
  | nil => simp [joinSep] at hx
  | cons c cs ih =>
      cases cs with
      | nil =>
          rw [show joinSep [c] = c from rfl] at hx
          exact Or.inr (Or.inr ⟨c, by simp, hx⟩)
      | cons c2 cs2 =>
          rw [joinSep_cons c (by simp)] at hx
          rcases List.mem_append.mp hx with hx1 | hx2
          · exact Or.inr (Or.inr ⟨c, by simp, hx1⟩)
          · simp only [List.mem_cons] at hx2
            rcases hx2 with rfl | rfl | rfl | hx3
            · exact Or.inl rfl
            · exact Or.inr (Or.inl rfl)
            · exact Or.inl rfl
            · rcases ih hx3 with h1 | h2 | ⟨c3, hc3, hxc3⟩
              · exact Or.inl h1
              · exact Or.inr (Or.inl h2)
              · exact Or.inr (Or.inr ⟨c3, by simp [hc3], hxc3⟩)

/-- A canonically rendered row of clean cells is nonempty and break-free. -/
theorem renderRowB_line_ok {r : List (List Char)} (hclean : ∀ c ∈ r, cleanCell c = true) :
    renderRowB r ≠ [] ∧ ∀ x ∈ renderRowB r, isLb x = false := by
  refine ⟨by simp [renderRowB], ?_⟩
  intro x hx
  unfold renderRowB at hx
  simp only [List.mem_cons, List.mem_append] at hx
  rcases hx with rfl | rfl | hx4 | hx5
  · decide
  · decide
  · rcases mem_joinSep hx4 with rfl | rfl | ⟨c, hc, hxc⟩
    · decide
    · decide
    · exact (cleanCell_mem (hclean c hc) hxc).2.1
  · simp only [List.mem_cons, List.not_mem_nil, or_false] at hx5
    rcases hx5 with rfl | rfl
    · decide
    · decide

/-- The canonical border line is nonempty and break-free. -/
theorem tableBorder_line_ok : tableBorder ≠ [] ∧ ∀ x ∈ tableBorder, isLb x = false := by
  constructor
  · decide
  · decide

/-- Whitespace-stripping the canonical bordered rendering is the identity
(it begins and ends with a border character). -/
theorem stripWs_renderBordered (H : List (List Char)) (R : List (List (List Char))) :
    pyStripWs (renderBordered H R) = renderBordered H R := by
  obtain ⟨t, ht⟩ := joinLn_head tableBorder
    (renderRowB H :: ([tableBorder] ++ R.map renderRowB ++ [tableBorder]))
  have hshape : renderBordered H R = joinLn (tableBorder :: (renderRowB H ::
      ([tableBorder] ++ R.map renderRowB ++ [tableBorder]))) := by
    unfold renderBordered
    simp
  obtain ⟨t2, ht2⟩ := joinLn_last_rev tableBorder
    ([tableBorder, renderRowB H, tableBorder] ++ R.map renderRowB)
  have hshape2 : renderBordered H R =
      joinLn (([tableBorder, renderRowB H, tableBorder] ++ R.map renderRowB) ++ [tableBorder]) := by
    unfold renderBordered
    simp
  apply pyStripP_eq_self
  · rw [hshape, ht]
    rw [show tableBorder ++ t = '+' :: ("--+".toList ++ t) from rfl]
    rw [List.dropWhile_cons, if_neg (by simp [isPyWs])]
  · rw [hshape2, ht2]
    rw [show tableBorder.reverse ++ t2 = '+' :: ("--+".toList ++ t2) from rfl]
    rw [List.dropWhile_cons, if_neg (by simp [isPyWs])]

/-- Splitting the canonical bordered rendering into lines recovers the
border, header, border, data and closing border lines. -/
theorem splitlines_renderBordered {H : List (List Char)} {R : List (List (List Char))}
    (hHc : ∀ c ∈ H, cleanCell c = true)
    (hRc : ∀ r ∈ R, ∀ c ∈ r, cleanCell c = true) :
    pySplitlines (pyStripWs (renderBordered H R)) =
      tableBorder :: renderRowB H :: tableBorder :: (R.map renderRowB ++ [tableBorder]) := by
  rw [stripWs_renderBordered]
  have hshape : renderBordered H R = joinLn (tableBorder :: renderRowB H :: tableBorder ::
      (R.map renderRowB ++ [tableBorder])) := by
    unfold renderBordered
    simp
  rw [hshape]
  apply pySplitlines_joinLn _ (by simp)
  intro l hl
  simp only [List.mem_cons, List.mem_append, List.mem_map, List.mem_singleton,
    List.not_mem_nil, or_false] at hl
  rcases hl with rfl | rfl | rfl | ⟨r, hr, rfl⟩ | rfl
  · exact tableBorder_line_ok
  · exact renderRowB_line_ok hHc
  · exact tableBorder_line_ok
  · exact renderRowB_line_ok (hRc r hr)
  · exact tableBorder_line_ok

/-- Running the line loop in phase 4 over data lines followed by a closing
divider collects exactly the parsed rows. -/
theorem ttdLoop_dataLines (H : List (List Char)) (endline : List Char)
    (hend : isDividerLine endline = true) :
    ∀ (ds : List (List Char)) (R : List (List (List Char)))
      (acc : List (List (Option (List Char)))),
      List.Forall₂ (fun d r => isDividerLine d = false ∧ parseDataCells d = r ∧
        r.length = H.length) ds R →
      ttdLoop (ds ++ [endline]) 4 (some H) acc =
        some (some H, acc ++ R.map (fun r => r.map some)) := by
  intro ds
  induction ds with
  | nil =>
      intro R acc hfa
      cases hfa
      simp [ttdLoop, hend]
  | cons d ds ih =>
      intro R acc hfa
      cases hfa with
      | cons hdr hfa2 =>
          rename_i r R2
          obtain ⟨hdv, hdp, hdl⟩ := hdr
          rw [List.cons_append, ttdLoop]
          rw [if_neg (by simp [hdv])]
          rw [if_neg (by simp)]
          rw [if_neg (by simp [hdv])]
          rw [if_neg (by simp [hdv])]
          simp only []
          rw [hdp]
          have hpad : padRow H (r.map some) = r.map some := by
            unfold padRow
            rw [if_neg (by simp [hdl])]
          rw [hpad]
          rw [if_pos (by simp [hdl])]
          rw [ih R2 (acc ++ [r.map some]) hfa2]
          simp

/-- Running `text_to_df` over a border, header line, border, data lines and
closing border produces the parsed header and the normalized parsed rows. -/
theorem text_to_df_assembled (txt : List Char) (hl b1 b2 b3 : List Char)
    (ds : List (List Char)) (H : List (List Char)) (R : List (List (List Char)))
    (hsplit : pySplitlines (pyStripWs txt) = b1 :: hl :: b2 :: (ds ++ [b3]))
    (h1 : isDividerLine b1 = true) (h2 : isDividerLine b2 = true)
    (h3 : isDividerLine b3 = true)
    (hH : parseHeaderCells hl = H)
    (hHclean : ∀ c ∈ H, cleanCell c = true)
    (hHnd : H.Nodup)
    (hRclean : ∀ r ∈ R, ∀ c ∈ r, cleanCell c = true)
    (hfa : List.Forall₂ (fun d r => isDividerLine d = false ∧ parseDataCells d = r ∧
      r.length = H.length) ds R) :
    text_to_df txt = some ⟨H, R.map (fun r => r.map nullNone)⟩ := by
  unfold text_to_df
  rw [hsplit]
  simp only []
  rw [ttdLoop]
  rw [if_pos (by simp [h1])]
  rw [ttdLoop]
  rw [if_neg (by simp)]
  rw [if_pos (by simp)]
  rw [ttdLoop]
  rw [if_neg (by simp)]
  rw [if_neg (by simp)]
  rw [if_pos (by simp [h2])]
  rw [hH]
  rw [ttdLoop_dataLines H b3 h3 ds R [] hfa]
  simp only [List.nil_append]
  cases R with
  | nil => simp
  | cons r R2 =>
      rw [if_neg (by simp)]
      rw [mapTrim_clean hHclean]
      rw [if_pos hHnd]
      simp only [Option.some.injEq, Df.mk.injEq, true_and]
      rw [List.map_map]
      apply List.map_congr_left
      intro r2 hr2
      simp only [Function.comp_apply]
      rw [List.map_map]
      apply List.map_congr_left
      intro c hc
      simp only [Function.comp_apply]
      exact normCell_some_clean (hRclean r2 hr2 c hc)

/-- Canonically rendered data lines parse back to their rows. -/
theorem forall₂_renderRows (H : List (List Char)) :
    ∀ (R : List (List (List Char))),
      (∀ r ∈ R, ∀ c ∈ r, cleanCell c = true) →
      (∀ r ∈ R, r ≠ []) →
      (∀ r ∈ R, r.length = H.length) →
      List.Forall₂ (fun d r => isDividerLine d = false ∧ parseDataCells d = r ∧
        r.length = H.length) (R.map renderRowB) R := by
  intro R
  induction R with
  | nil => intro _ _ _; exact List.Forall₂.nil
  | cons r R ih =>
      intro hc hne hlen
      rw [List.map_cons]
      exact List.Forall₂.cons
        ⟨not_divider_renderRowB r,
         parseDataCells_renderRowB (hne r (by simp)) (hc r (by simp)),
         hlen r (by simp)⟩
        (ih (fun x hx => hc x (by simp [hx])) (fun x hx => hne x (by simp [hx]))
          (fun x hx => hlen x (by simp [hx])))

/-- Parsing the canonical bordered rendering of a clean table recovers the
header and the null-normalized rows. -/
theorem text_to_df_renderBordered {H : List (List Char)} {R : List (List (List Char))}
    (hHne : H ≠ []) (hHnd : H.Nodup) (hHc : ∀ c ∈ H, cleanCell c = true)
    (hRc : ∀ r ∈ R, ∀ c ∈ r, cleanCell c = true)
    (hRl : ∀ r ∈ R, r.length = H.length) :
    text_to_df (renderBordered H R) = some ⟨H, R.map (fun r => r.map nullNone)⟩ := by
  have hRne : ∀ r ∈ R, r ≠ [] := by
    intro r hr hrnil
    have hlr := hRl r hr
    rw [hrnil] at hlr
    simp at hlr
    exact hHne (List.eq_nil_of_length_eq_zero hlr.symm)
  exact text_to_df_assembled (renderBordered H R) (renderRowB H) tableBorder tableBorder
    tableBorder (R.map renderRowB) H R
    (splitlines_renderBordered hHc hRc)
    isDividerLine_tableBorder isDividerLine_tableBorder isDividerLine_tableBorder
    (parseHeaderCells_renderRowB hHne hHc)
    hHc hHnd hRc
    (forall₂_renderRows H R hRc hRne hRl)

/-- A clean cell is not the empty list (boolean form). -/
theorem cleanCell_isEmpty {c : List Char} (hc : cleanCell c = true) :
    c.isEmpty = false := by
  rcases c with _ | ⟨d, cs⟩
  · exact absurd hc (by simp [cleanCell])
  · rfl

/-- A header piece for a clean cell has the padded shape with a zero-width
space after the cell. -/
theorem hPiece_shape (w : Nat) {c : List Char} (hc : cleanCell c = true) :
    ∃ li ri, hPiece w c = ' ' :: (spaces li ++ c ++ [zwsp] ++ spaces ri ++ [' ', '|']) := by
  refine ⟨(w - c.length) / 2, (w - c.length) - (w - c.length) / 2 + 1, ?_⟩
  unfold hPiece
  simp only []
  rw [if_pos (by simp [cleanCell_isEmpty hc])]

/-- A data piece for a clean cell has the padded shape with no inner left
padding. -/
theorem dPiece_shape (w : Nat) {c : List Char} (hc : cleanCell c = true) :
    ∃ li ri, dPiece w c = ' ' :: (spaces li ++ c ++ [zwsp] ++ spaces ri ++ [' ', '|']) := by
  refine ⟨0, (w - c.length) + 1, ?_⟩
  unfold dPiece
  simp only []
  rw [if_pos (by simp [cleanCell_isEmpty hc])]
  simp [spaces]

/-- Header pieces of a width-aligned clean row all have the padded shape. -/
theorem forall₂_hPieces :
    ∀ (ws : List Nat) (cs : List (List Char)), ws.length = cs.length →
      (∀ c ∈ cs, cleanCell c = true) →
      List.Forall₂ (fun piece c => cleanCell c = true ∧ ∃ li ri,
          piece = ' ' :: (spaces li ++ c ++ [zwsp] ++ spaces ri ++ [' ', '|']))
        (List.zipWith hPiece ws cs) cs := by
  intro ws
  induction ws with
  | nil =>
      intro cs hlen _
      cases cs with
      | nil => exact List.Forall₂.nil
      | cons c cs => simp at hlen
  | cons w ws ih =>
      intro cs hlen hclean
      cases cs with
      | nil => simp at hlen
      | cons c cs =>
          rw [List.zipWith_cons_cons]
          exact List.Forall₂.cons
            ⟨hclean c (by simp), hPiece_shape w (hclean c (by simp))⟩
            (ih cs (by simpa using hlen) (fun x hx => hclean x (by simp [hx])))

/-- Data pieces of a width-aligned clean row all have the padded shape. -/
theorem forall₂_dPieces :
    ∀ (ws : List Nat) (cs : List (List Char)), ws.length = cs.length →
      (∀ c ∈ cs, cleanCell c = true) →
      List.Forall₂ (fun piece c => cleanCell c = true ∧ ∃ li ri,
          piece = ' ' :: (spaces li ++ c ++ [zwsp] ++ spaces ri ++ [' ', '|']))
        (List.zipWith dPiece ws cs) cs := by
  intro ws
  induction ws with
  | nil =>
      intro cs hlen _
      cases cs with
      | nil => exact List.Forall₂.nil
      | cons c cs => simp at hlen
  | cons w ws ih =>
      intro cs hlen hclean
      cases cs with
      | nil => simp at hlen
      | cons c cs =>
          rw [List.zipWith_cons_cons]
          exact List.Forall₂.cons
            ⟨hclean c (by simp), dPiece_shape w (hclean c (by simp))⟩
            (ih cs (by simpa using hlen) (fun x hx => hclean x (by simp [hx])))

/-- Back-stripping distributes over an append whose right part does not strip
to nothing. -/
theorem stripBack_append {p : Char → Bool} (X Y : List Char)
    (hY : (Y.reverse.dropWhile p).reverse ≠ []) :
    (((X ++ Y).reverse.dropWhile p)).reverse = X ++ (Y.reverse.dropWhile p).reverse := by
  rw [List.reverse_append, List.dropWhile_append]
  have hne : (Y.reverse.dropWhile p).isEmpty = false := by
    rcases h : Y.reverse.dropWhile p with _ | ⟨a, t⟩
    · rw [h] at hY
      simp at hY
    · rfl
  rw [if_neg (by simp [hne])]
  simp

/-- Back-stripping bars and spaces from flattened header pieces leaves a
space followed by a padded separator-join of the cells. -/
theorem stripBack_hPieces :
    ∀ {pieces cs : List (List Char)},
      List.Forall₂ (fun piece c => cleanCell c = true ∧ ∃ li ri,
          piece = ' ' :: (spaces li ++ c ++ [zwsp] ++ spaces ri ++ [' ', '|'])) pieces cs →
      cs ≠ [] →
      ∃ pads : List (Nat × List Char), pads.length = cs.length ∧
        (∀ pz ∈ pads, ∀ x ∈ pz.2, x = ' ' ∨ isZw x = true) ∧
        (pieces.flatten.reverse.dropWhile (fun c => c == '|' || c == ' ')).reverse =
          ' ' :: joinSep (List.zipWith (fun pz c => spaces pz.1 ++ c ++ pz.2) pads cs) := by
  intro pieces cs hfa
  induction hfa with
  | nil => intro h; exact absurd rfl h
  | cons h hfa2 ih =>
      rename_i piece c pieces2 cs2
      intro hne0
      obtain ⟨hc, li, ri, hp⟩ := h
      cases hfa2 with
      | nil =>
          refine ⟨[(li, [zwsp])], rfl, ?_, ?_⟩
          · intro pz hpz x hx
            simp only [List.mem_singleton] at hpz
            subst hpz
            simp only [List.mem_singleton] at hx
            subst hx
            exact Or.inr (by decide)
          · have hflat : List.flatten [piece] = piece := by simp
            rw [hflat, hp]
            have h1 : (' ' :: (spaces li ++ c ++ [zwsp] ++ spaces ri ++ [' ', '|'])).reverse
                = '|' :: ' ' :: (spaces ri ++ ([zwsp] ++ (c.reverse ++ (spaces li ++ [' '])))) := by
              simp [spaces]
            rw [h1, List.dropWhile_cons, if_pos (by simp), List.dropWhile_cons,
              if_pos (by simp),
              dropWhile_append_all (fun x hx => by simp [mem_spaces hx]),
              List.singleton_append, List.dropWhile_cons, if_neg (by decide)]
            simp [spaces, joinSep]
      | cons h2 hfa3 =>
          rename_i piece2 c2 pieces3 cs3
          obtain ⟨pads2, hlen2, hok2, heq2⟩ := ih (by simp)
          obtain ⟨q0, pads3, hq0⟩ := List.exists_cons_of_ne_nil
            (show pads2 ≠ [] by intro hnil; rw [hnil] at hlen2; simp at hlen2)
          refine ⟨(li, [zwsp] ++ spaces ri) :: pads2, by simpa using hlen2, ?_, ?_⟩
          · intro pz hpz x hx
            rcases List.mem_cons.mp hpz with rfl | hmem
            · rcases List.mem_append.mp hx with hx1 | hx2
              · simp only [List.mem_singleton] at hx1
                subst hx1
                exact Or.inr (by decide)
              · exact Or.inl (mem_spaces hx2)
            · exact hok2 pz hmem x hx
          · rw [List.flatten_cons]
            rw [stripBack_append piece ((piece2 :: pieces3).flatten)
              (by rw [heq2]; simp)]
            rw [heq2, hp]
            rw [List.zipWith_cons_cons]
            rw [joinSep_cons _ (show List.zipWith
              (fun pz c => spaces pz.1 ++ c ++ pz.2) pads2 (c2 :: cs3) ≠ [] from by
                rw [hq0]; simp)]
            simp

/-- Back-stripping only bars from flattened data pieces leaves a space
followed by a padded separator-join of the cells. -/
theorem stripBack_dPieces :
    ∀ {pieces cs : List (List Char)},
      List.Forall₂ (fun piece c => cleanCell c = true ∧ ∃ li ri,
          piece = ' ' :: (spaces li ++ c ++ [zwsp] ++ spaces ri ++ [' ', '|'])) pieces cs →
      cs ≠ [] →
      ∃ pads : List (Nat × List Char), pads.length = cs.length ∧
        (∀ pz ∈ pads, ∀ x ∈ pz.2, x = ' ' ∨ isZw x = true) ∧
        (pieces.flatten.reverse.dropWhile (fun c => c == '|')).reverse =
          ' ' :: joinSep (List.zipWith (fun pz c => spaces pz.1 ++ c ++ pz.2) pads cs) := by
  intro pieces cs hfa
  induction hfa with
  | nil => intro h; exact absurd rfl h
  | cons h hfa2 ih =>
      rename_i piece c pieces2 cs2
      intro hne0
      obtain ⟨hc, li, ri, hp⟩ := h
      cases hfa2 with
      | nil =>
          refine ⟨[(li, [zwsp] ++ spaces ri ++ [' '])], rfl, ?_, ?_⟩
          · intro pz hpz x hx
            simp only [List.mem_singleton] at hpz
            subst hpz
            rcases List.mem_append.mp hx with hx1 | hx2
            · rcases List.mem_append.mp hx1 with hx3 | hx4
              · simp only [List.mem_singleton] at hx3
                subst hx3
                exact Or.inr (by decide)
              · exact Or.inl (mem_spaces hx4)
            · simp only [List.mem_singleton] at hx2
              exact Or.inl hx2
          · have hflat : List.flatten [piece] = piece := by simp
            rw [hflat, hp]
            have h1 : (' ' :: (spaces li ++ c ++ [zwsp] ++ spaces ri ++ [' ', '|'])).reverse
                = '|' :: ' ' :: (spaces ri ++ ([zwsp] ++ (c.reverse ++ (spaces li ++ [' '])))) := by
              simp [spaces]
            rw [h1, List.dropWhile_cons, if_pos (by simp), List.dropWhile_cons,
              if_neg (by simp)]
            simp [spaces, joinSep]
      | cons h2 hfa3 =>
          rename_i piece2 c2 pieces3 cs3
          obtain ⟨pads2, hlen2, hok2, heq2⟩ := ih (by simp)
          obtain ⟨q0, pads3, hq0⟩ := List.exists_cons_of_ne_nil
            (show pads2 ≠ [] by intro hnil; rw [hnil] at hlen2; simp at hlen2)
          refine ⟨(li, [zwsp] ++ spaces ri) :: pads2, by simpa using hlen2, ?_, ?_⟩
          · intro pz hpz x hx
            rcases List.mem_cons.mp hpz with rfl | hmem
            · rcases List.mem_append.mp hx with hx1 | hx2
              · simp only [List.mem_singleton] at hx1
                subst hx1
                exact Or.inr (by decide)
              · exact Or.inl (mem_spaces hx2)
            · exact hok2 pz hmem x hx
          · rw [List.flatten_cons]
            rw [stripBack_append piece ((piece2 :: pieces3).flatten)
              (by rw [heq2]; simp)]
            rw [heq2, hp]
            rw [List.zipWith_cons_cons]
            rw [joinSep_cons _ (show List.zipWith
              (fun pz c => spaces pz.1 ++ c ++ pz.2) pads2 (c2 :: cs3) ≠ [] from by
                rw [hq0]; simp)]
            simp

/-- Prepending a space to a padded separator-join absorbs into the first
pad. -/
theorem joinSep_bump (a : Nat) (z : List Char) (pads : List (Nat × List Char))
    (c : List Char) (cs : List (List Char)) :
    ' ' :: joinSep (List.zipWith (fun pz c => spaces pz.1 ++ c ++ pz.2) ((a, z) :: pads) (c :: cs)) =
    joinSep (List.zipWith (fun pz c => spaces pz.1 ++ c ++ pz.2) ((a + 1, z) :: pads) (c :: cs)) := by
  rw [List.zipWith_cons_cons, List.zipWith_cons_cons]
  cases hzw : List.zipWith (fun pz c => spaces pz.1 ++ c ++ pz.2) pads cs with
  | nil =>
      show ' ' :: (spaces a ++ c ++ z) = spaces (a + 1) ++ c ++ z
      simp [spaces, List.replicate_succ]
  | cons q qs =>
      rw [joinSep_cons (spaces a ++ c ++ z) (by simp),
        joinSep_cons (spaces (a + 1) ++ c ++ z) (by simp)]
      simp [spaces, List.replicate_succ]

/-- Dropping from an appended singleton that does not satisfy the predicate
distributes. -/
theorem dropWhile_append_singleton {p : Char → Bool} {a : Char} (ha : p a = false)
    (X : List Char) : (X ++ [a]).dropWhile p = X.dropWhile p ++ [a] := by
  induction X with
  | nil => simp [List.dropWhile, ha]
  | cons x X ih =>
      by_cases hx : p x
      · simp [List.dropWhile_cons, hx, ih]
      · simp [List.dropWhile_cons, hx]

/-- A line starting with a bar is never a divider. -/
theorem not_divider_barLine (L : List Char) : isDividerLine ('|' :: L) = false := by
  have ht : pyStripWs ('|' :: L) = '|' :: (L.reverse.dropWhile isPyWs).reverse := by
    unfold pyStripWs pyStripP
    rw [List.dropWhile_cons, if_neg (by decide), List.reverse_cons,
      dropWhile_append_singleton (by decide)]
    simp
  unfold isDividerLine
  simp only []
  rw [ht]
  simp

/-- A clean cell starts with a character that is neither a bar nor a
space. -/
theorem cleanCell_head_pH {c : List Char} (hc : cleanCell c = true) :
    ∃ d t, c = d :: t ∧ ((d == '|' || d == ' ') = false) := by
  obtain ⟨d, t, hdt, hd⟩ := cleanCell_head hc
  refine ⟨d, t, hdt, ?_⟩
  have hdb : d ≠ '|' := (cleanCell_mem hc (by rw [hdt]; simp)).1
  have hds : (d == ' ') = false := by
    by_contra hcon
    simp only [Bool.not_eq_false, beq_iff_eq] at hcon
    rw [hcon] at hd
    exact absurd hd (by decide)
  simp [hdb, hds]

/-- Stripping bars and spaces from a bar followed by flattened header pieces
leaves a padded separator-join of the cells. -/
theorem pyStrip_hShape {pieces cs : List (List Char)}
    (hfa : List.Forall₂ (fun piece c => cleanCell c = true ∧ ∃ li ri,
        piece = ' ' :: (spaces li ++ c ++ [zwsp] ++ spaces ri ++ [' ', '|'])) pieces cs)
    (hne : cs ≠ []) :
    ∃ pads : List (Nat × List Char), pads.length = cs.length ∧
      (∀ pz ∈ pads, ∀ x ∈ pz.2, x = ' ' ∨ isZw x = true) ∧
      pyStripP (fun c => c == '|' || c == ' ') ('|' :: pieces.flatten) =
        joinSep (List.zipWith (fun pz c => spaces pz.1 ++ c ++ pz.2) pads cs) := by
  cases hfa with
  | nil => exact absurd rfl hne
  | cons h1 hfa2 =>
      rename_i piece1 c1 pieces2 cs2
      obtain ⟨hc1, li, ri, hp⟩ := h1
      obtain ⟨d, c1t, hdt, hdp⟩ := cleanCell_head_pH hc1
      cases hfa2 with
      | nil =>
          refine ⟨[(0, [zwsp])], rfl, ?_, ?_⟩
          · intro pz hpz x hx
            simp only [List.mem_singleton] at hpz
            subst hpz
            simp only [List.mem_singleton] at hx
            subst hx
            exact Or.inr (by decide)
          · unfold pyStripP
            have hflat : List.flatten [piece1] = piece1 := by simp
            rw [hflat, hp]
            have hfront : ('|' :: (' ' :: (spaces li ++ c1 ++ [zwsp] ++ spaces ri ++
                [' ', '|']))).dropWhile (fun c => c == '|' || c == ' ')
                = c1 ++ ([zwsp] ++ spaces ri ++ [' ', '|']) := by
              rw [List.dropWhile_cons, if_pos (by simp), List.dropWhile_cons,
                if_pos (by simp)]
              rw [show spaces li ++ c1 ++ [zwsp] ++ spaces ri ++ [' ', '|']
                  = spaces li ++ (c1 ++ ([zwsp] ++ spaces ri ++ [' ', '|'])) from by simp]
              rw [dropWhile_append_all (fun x hx => by simp [mem_spaces hx])]
              rw [hdt, List.cons_append, List.dropWhile_cons, if_neg (by simp [hdp])]
            rw [hfront]
            have hrev : (c1 ++ ([zwsp] ++ spaces ri ++ [' ', '|'])).reverse
                = '|' :: ' ' :: (spaces ri ++ ([zwsp] ++ c1.reverse)) := by
              simp [spaces]
            rw [hrev, List.dropWhile_cons, if_pos (by simp), List.dropWhile_cons,
              if_pos (by simp),
              dropWhile_append_all (fun x hx => by simp [mem_spaces hx]),
              List.singleton_append, List.dropWhile_cons, if_neg (by decide)]
            simp [spaces, joinSep]
      | cons h2 hfa3 =>
          rename_i piece2 c2 pieces3 cs3
          obtain ⟨pads2, hlen2, hok2, heq2⟩ :=
            stripBack_hPieces (List.Forall₂.cons h2 hfa3) (by simp)
          obtain ⟨q0, pads3, hq0⟩ := List.exists_cons_of_ne_nil
            (show pads2 ≠ [] by intro hnil; rw [hnil] at hlen2; simp at hlen2)
          refine ⟨(0, [zwsp] ++ spaces ri) :: pads2, by simpa using hlen2, ?_, ?_⟩
          · intro pz hpz x hx
            rcases List.mem_cons.mp hpz with rfl | hmem
            · rcases List.mem_append.mp hx with hx1 | hx2
              · simp only [List.mem_singleton] at hx1
                subst hx1
                exact Or.inr (by decide)
              · exact Or.inl (mem_spaces hx2)
            · exact hok2 pz hmem x hx
          · unfold pyStripP
            rw [List.flatten_cons, hp]
            have hfront : ('|' :: ((' ' :: (spaces li ++ c1 ++ [zwsp] ++ spaces ri ++
                [' ', '|'])) ++ (piece2 :: pieces3).flatten)).dropWhile
                  (fun c => c == '|' || c == ' ')
                = (c1 ++ ([zwsp] ++ spaces ri ++ [' ', '|'])) ++
                    (piece2 :: pieces3).flatten := by
              rw [List.dropWhile_cons, if_pos (by simp), List.cons_append,
                List.dropWhile_cons, if_pos (by simp)]
              rw [show (spaces li ++ c1 ++ [zwsp] ++ spaces ri ++ [' ', '|']) ++
                    (piece2 :: pieces3).flatten
                  = spaces li ++ (c1 ++ (([zwsp] ++ spaces ri ++ [' ', '|']) ++
                    (piece2 :: pieces3).flatten)) from by simp]
              rw [dropWhile_append_all (fun x hx => by simp [mem_spaces hx])]
              rw [hdt, List.cons_append, List.dropWhile_cons, if_neg (by simp [hdp])]
              simp
            rw [hfront]
            rw [stripBack_append (c1 ++ ([zwsp] ++ spaces ri ++ [' ', '|']))
              ((piece2 :: pieces3).flatten) (by rw [heq2]; simp)]
            rw [heq2]
            rw [List.zipWith_cons_cons]
            rw [joinSep_cons _ (show List.zipWith
              (fun pz c => spaces pz.1 ++ c ++ pz.2) pads2 (c2 :: cs3) ≠ [] from by
                rw [hq0]; simp)]
            simp [spaces]

/-- Stripping bars from a bar followed by flattened data pieces leaves a
padded separator-join of the cells. -/
theorem pyStrip_dShape {pieces cs : List (List Char)}
    (hfa : List.Forall₂ (fun piece c => cleanCell c = true ∧ ∃ li ri,
        piece = ' ' :: (spaces li ++ c ++ [zwsp] ++ spaces ri ++ [' ', '|'])) pieces cs)
    (hne : cs ≠ []) :
    ∃ pads : List (Nat × List Char), pads.length = cs.length ∧
      (∀ pz ∈ pads, ∀ x ∈ pz.2, x = ' ' ∨ isZw x = true) ∧
      pyStripP (fun c => c == '|') ('|' :: pieces.flatten) =
        joinSep (List.zipWith (fun pz c => spaces pz.1 ++ c ++ pz.2) pads cs) := by
  obtain ⟨pads, hlen, hok, heq⟩ := stripBack_dPieces hfa hne
  obtain ⟨c1, cs2, rfl⟩ := List.exists_cons_of_ne_nil hne
  obtain ⟨q0, pads2, rfl⟩ := List.exists_cons_of_ne_nil
    (show pads ≠ [] by intro hnil; rw [hnil] at hlen; simp at hlen)
  obtain ⟨piece1, pieces2, rfl⟩ : ∃ p ps, pieces = p :: ps := by
    cases hfa with
    | cons h1 hfa2 => exact ⟨_, _, rfl⟩
  refine ⟨(q0.1 + 1, q0.2) :: pads2, by simpa using hlen, ?_, ?_⟩
  · intro pz hpz x hx
    rcases List.mem_cons.mp hpz with rfl | hmem
    · exact hok q0 (by simp) x hx
    · exact hok pz (by simp [hmem]) x hx
  · unfold pyStripP
    have hfront : ('|' :: (piece1 :: pieces2).flatten).dropWhile (fun c => c == '|')
        = (piece1 :: pieces2).flatten := by
      rw [List.dropWhile_cons, if_pos (by simp)]
      cases hfa with
      | cons h1 hfa2 =>
          obtain ⟨hc1, li, ri, hp⟩ := h1
          rw [List.flatten_cons, hp, List.cons_append, List.dropWhile_cons]
          rw [if_neg (by decide)]
    rw [hfront, heq]
    rw [show q0 = (q0.1, q0.2) from rfl]
    exact joinSep_bump q0.1 q0.2 pads2 c1 cs2

/-- Parsing the header cells of a formatted header row recovers the cells. -/
theorem parseHeaderCells_formatRowH (ws : List Nat) (cs : List (List Char))
    (hlen : ws.length = cs.length) (hne : cs ≠ [])
    (hclean : ∀ c ∈ cs, cleanCell c = true) :
    parseHeaderCells (formatRowH ws cs) = cs := by
  obtain ⟨pads, hplen, hpok, heq⟩ :=
    pyStrip_hShape (forall₂_hPieces ws cs hlen hclean) hne
  unfold parseHeaderCells formatRowH
  rw [heq]
  exact map_trim_splitBarSep_join cs pads hplen hne hclean hpok

/-- Parsing the data cells of a formatted data row recovers the cells. -/
theorem parseDataCells_formatRowD (ws : List Nat) (cs : List (List Char))
    (hlen : ws.length = cs.length) (hne : cs ≠ [])
    (hclean : ∀ c ∈ cs, cleanCell c = true) :
    parseDataCells (formatRowD ws cs) = cs := by
  obtain ⟨pads, hplen, hpok, heq⟩ :=
    pyStrip_dShape (forall₂_dPieces ws cs hlen hclean) hne
  unfold parseDataCells formatRowD
  rw [heq]
  exact map_trim_splitBarSep_join cs pads hplen hne hclean hpok

/-- Dropping is the identity when no character satisfies the predicate. -/
theorem dropWhile_eq_self_of_all {p : Char → Bool} {l : List Char}
    (h : ∀ x ∈ l, p x = false) : l.dropWhile p = l := by
  cases l with
  | nil => rfl
  | cons a l => rw [List.dropWhile_cons, if_neg (by simp [h a (by simp)])]

/-- Characters of a rendered separator line are pluses and dashes. -/
theorem mem_sepLineOut {widths : List Nat} {x : Char} (hx : x ∈ sepLineOut widths) :
    x = '+' ∨ x = '-' := by
  unfold sepLineOut at hx
  rcases List.mem_cons.mp hx with rfl | hx2
  · exact Or.inl rfl
  · simp only [List.mem_flatten, List.mem_map] at hx2
    obtain ⟨l, ⟨w, hw, rfl⟩, hxl⟩ := hx2
    unfold sepPiece at hxl
    rcases List.mem_append.mp hxl with h1 | h2
    · exact Or.inr (List.eq_of_mem_replicate h1)
    · simp only [List.mem_singleton] at h2
      exact Or.inl h2

/-- A rendered separator line is a divider. -/
theorem isDividerLine_sepLineOut (widths : List Nat) :
    isDividerLine (sepLineOut widths) = true := by
  have hmem : ∀ x ∈ sepLineOut widths, x = '+' ∨ x = '-' :=
    fun x hx => mem_sepLineOut hx
  have hstrip : pyStripWs (sepLineOut widths) = sepLineOut widths := by
    apply pyStripP_eq_self
    · apply dropWhile_eq_self_of_all
      intro x hx
      rcases hmem x hx with rfl | rfl <;> decide
    · apply dropWhile_eq_self_of_all
      intro x hx
      rcases hmem x (List.mem_reverse.mp hx) with rfl | rfl <;> decide
  unfold isDividerLine
  simp only []
  rw [show pyStripWs (sepLineOut widths) = sepLineOut widths from hstrip]
  have h1 : (sepLineOut widths).isEmpty = false := by unfold sepLineOut; rfl
  have h2 : (sepLineOut widths).all (fun c => c == '+' || c == '-') = true := by
    rw [List.all_eq_true]
    intro x hx
    rcases hmem x hx with rfl | rfl <;> decide
  rw [h1, h2]
  rfl

/-- A rendered separator line is nonempty and break-free. -/
theorem sepLineOut_line_ok (widths : List Nat) :
    sepLineOut widths ≠ [] ∧ ∀ x ∈ sepLineOut widths, isLb x = false := by
  constructor
  · unfold sepLineOut
    simp
  · intro x hx
    rcases mem_sepLineOut hx with rfl | rfl <;> decide

/-- Pieces with the padded shape contain no line breaks. -/
theorem shape_lb_free {pieces cs : List (List Char)}
    (hfa : List.Forall₂ (fun piece c => cleanCell c = true ∧ ∃ li ri,
        piece = ' ' :: (spaces li ++ c ++ [zwsp] ++ spaces ri ++ [' ', '|'])) pieces cs) :
    ∀ piece ∈ pieces, ∀ x ∈ piece, isLb x = false := by
  induction hfa with
  | nil => intro piece h; simp at h
  | cons h1 hfa2 ih =>
      rename_i p c ps cs2
      intro piece hpiece x hx
      rcases List.mem_cons.mp hpiece with rfl | hmem
      · obtain ⟨hc, li, ri, hp⟩ := h1
        rw [hp] at hx
        rcases List.mem_cons.mp hx with rfl | hx2
        · decide
        · simp only [List.mem_append, List.mem_singleton, List.mem_cons,
            List.not_mem_nil, or_false] at hx2
          rcases hx2 with ((((hxa | hxb) | hxc) | hxd) | hxe | hxf)
          · rw [mem_spaces hxa]; decide
          · exact (cleanCell_mem hc hxb).2.1
          · rw [hxc]; decide
          · rw [mem_spaces hxd]; decide
          · rw [hxe]; decide
          · rw [hxf]; decide
      · exact ih piece hmem x hx

/-- A formatted row line (bar followed by shaped pieces) is nonempty and
break-free. -/
theorem shapeRow_line_ok {pieces cs : List (List Char)}
    (hfa : List.Forall₂ (fun piece c => cleanCell c = true ∧ ∃ li ri,
        piece = ' ' :: (spaces li ++ c ++ [zwsp] ++ spaces ri ++ [' ', '|'])) pieces cs) :
    ('|' :: pieces.flatten) ≠ [] ∧ ∀ x ∈ '|' :: pieces.flatten, isLb x = false := by
  constructor
  · simp
  · intro x hx
    rcases List.mem_cons.mp hx with rfl | hx2
    · decide
    · obtain ⟨piece, hpiece, hxp⟩ := List.mem_flatten.mp hx2
      exact shape_lb_free hfa piece hpiece x hxp

/-- Whitespace-stripping a clean cell padded with one space on each side
recovers the cell. -/
theorem stripWs_pad {c : List Char} (hc : cleanCell c = true) :
    pyStripWs (' ' :: (c ++ [' '])) = c := by
  obtain ⟨d, t, hdt, hd⟩ := cleanCell_head hc
  obtain ⟨e, es, hee, he⟩ := cleanCell_rev_head hc
  unfold pyStripWs pyStripP
  have hf : (' ' :: (c ++ [' '])).dropWhile isPyWs = c ++ [' '] := by
    rw [List.dropWhile_cons, if_pos (by decide), hdt, List.cons_append,
      List.dropWhile_cons, if_neg (by simp [hd]), ← List.cons_append, ← hdt]
  rw [hf]
  have hb : (c ++ [' ']).reverse.dropWhile isPyWs = c.reverse := by
    rw [List.reverse_append, List.reverse_singleton, List.singleton_append,
      List.dropWhile_cons, if_pos (by decide), hee, List.dropWhile_cons,
      if_neg (by simp [he]), ← hee]
  rw [hb]
  simp

/-- Splitting a space-padded separator-join of bar-free cells on the bar and
a trailing bar yields the space-padded cells and an empty last piece. -/
theorem splitChar_joinSep : ∀ (r : List (List Char)), r ≠ [] →
    (∀ c ∈ r, ∀ x ∈ c, x ≠ '|') →
    splitChar '|' (' ' :: (joinSep r ++ [' ', '|'])) =
      r.map (fun c => ' ' :: (c ++ [' '])) ++ [[]] := by
  intro r
  induction r with
  | nil => intro h _; exact absurd rfl h
  | cons c cs ih =>
      intro _ hbf
      cases cs with
      | nil =>
          rw [show joinSep [c] = c from rfl]
          rw [show ' ' :: (c ++ [' ', '|']) = (' ' :: (c ++ [' '])) ++ '|' :: [] from by simp]
          rw [splitChar_sep_append (by
            intro x hx
            rcases List.mem_cons.mp hx with rfl | hx2
            · decide
            · rcases List.mem_append.mp hx2 with hx3 | hx4
              · exact hbf c (by simp) x hx3
              · simp only [List.mem_singleton] at hx4
                rw [hx4]; decide)]
          rfl
      | cons c2 cs2 =>
          rw [joinSep_cons c (by simp)]
          rw [show ' ' :: (c ++ ' ' :: '|' :: ' ' :: joinSep (c2 :: cs2) ++ [' ', '|'])
              = (' ' :: (c ++ [' '])) ++ '|' :: (' ' :: (joinSep (c2 :: cs2) ++ [' ', '|']))
            from by simp]
          rw [splitChar_sep_append (by
            intro x hx
            rcases List.mem_cons.mp hx with rfl | hx2
            · decide
            · rcases List.mem_append.mp hx2 with hx3 | hx4
              · exact hbf c (by simp) x hx3
              · simp only [List.mem_singleton] at hx4
                rw [hx4]; decide)]
          rw [ih (by simp) (fun d hd x hx => hbf d (by simp [hd]) x hx)]
          rfl

/-- Parsing a canonically rendered row with the re-renderer's row parser
recovers the cells. -/
theorem rowCellsOut_renderRowB {r : List (List Char)} (hne : r ≠ [])
    (hclean : ∀ c ∈ r, cleanCell c = true) :
    rowCellsOut (renderRowB r) = some r := by
  have hbf : ∀ c ∈ r, ∀ x ∈ c, x ≠ '|' :=
    fun c hc x hx => (cleanCell_mem (hclean c hc) hx).1
  have hsplit : splitChar '|' (renderRowB r) =
      [] :: (r.map (fun c => ' ' :: (c ++ [' '])) ++ [[]]) := by
    unfold renderRowB
    rw [splitChar, if_pos (by simp)]
    rw [splitChar_joinSep r hne hbf]
  unfold rowCellsOut
  simp only []
  rw [hsplit]
  have hlen : 3 ≤ ([] :: (r.map (fun c => ' ' :: (c ++ [' '])) ++ [[]])).length := by
    simp only [List.length_cons, List.length_append, List.length_map,
      List.length_singleton]
    have := List.length_pos.mpr hne
    omega
  rw [if_pos (by simpa using hlen)]
  simp only [List.drop_one, List.tail_cons, List.dropLast_concat, Option.some.injEq]
  rw [List.map_map]
  have h2 : r.map (pyStripWs ∘ fun c => ' ' :: (c ++ [' '])) = r.map id := by
    apply List.map_congr_left
    intro c hcmem
    simp only [Function.comp_apply, id_eq]
    exact stripWs_pad (hclean c hcmem)
  rw [h2, List.map_id]

/-- Canonically rendered rows survive the re-renderer's row parser, in
order. -/
theorem filterMap_rowCells : ∀ (R : List (List (List Char))),
    (∀ r ∈ R, ∀ c ∈ r, cleanCell c = true) → (∀ r ∈ R, r ≠ []) →
    (R.map renderRowB).filterMap rowCellsOut = R := by
  intro R
  induction R with
  | nil => intro _ _; rfl
  | cons r R ih =>
      intro hc hne
      rw [List.map_cons, List.filterMap_cons,
        rowCellsOut_renderRowB (hne r (by simp)) (hc r (by simp))]
      rw [ih (fun x hx => hc x (by simp [hx])) (fun x hx => hne x (by simp [hx]))]

/-- Splitting the canonical bordered rendering into lines without a
preliminary strip likewise recovers its five line groups. -/
theorem pySplitlines_renderBordered {H : List (List Char)} {R : List (List (List Char))}
    (hHc : ∀ c ∈ H, cleanCell c = true)
    (hRc : ∀ r ∈ R, ∀ c ∈ r, cleanCell c = true) :
    pySplitlines (renderBordered H R) =
      tableBorder :: renderRowB H :: tableBorder :: (R.map renderRowB ++ [tableBorder]) := by
  rw [show renderBordered H R = joinLn (tableBorder :: renderRowB H :: tableBorder ::
      (R.map renderRowB ++ [tableBorder])) from by unfold renderBordered; simp]
  apply pySplitlines_joinLn _ (by simp)
  intro l hl
  simp only [List.mem_cons, List.mem_append, List.mem_map, List.mem_singleton,
    List.not_mem_nil, or_false] at hl
  rcases hl with rfl | rfl | rfl | ⟨r, hr, rfl⟩ | rfl
  · exact tableBorder_line_ok
  · exact renderRowB_line_ok hHc
  · exact tableBorder_line_ok
  · exact renderRowB_line_ok (hRc r hr)
  · exact tableBorder_line_ok

/-- Re-rendering the canonical bordered table of a clean dataset yields the
separator-framed formatted header and data rows. -/
theorem clean_out_renderBordered {H : List (List Char)} {R : List (List (List Char))}
    (hHne : H ≠ []) (hHc : ∀ c ∈ H, cleanCell c = true)
    (hRc : ∀ r ∈ R, ∀ c ∈ r, cleanCell c = true)
    (hRl : ∀ r ∈ R, r.length = H.length) :
    clean_out (renderBordered H R) =
      some (joinLn ([sepLineOut ((List.range H.length).map (colWidth H R)),
        formatRowH ((List.range H.length).map (colWidth H R)) H,
        sepLineOut ((List.range H.length).map (colWidth H R))] ++
        R.map (formatRowD ((List.range H.length).map (colWidth H R))) ++
        [sepLineOut ((List.range H.length).map (colWidth H R))])) := by
  have hRne : ∀ r ∈ R, r ≠ [] := by
    intro r hr hrnil
    have hlr := hRl r hr
    rw [hrnil] at hlr
    simp at hlr
    exact hHne (List.eq_nil_of_length_eq_zero hlr.symm)
  have hfR : (R.map renderRowB).filter
      (fun ln => match pyLStripWs ln with | '|' :: _ => true | _ => false)
      = R.map renderRowB := by
    apply List.filter_eq_self.mpr
    intro a ha
    obtain ⟨r, hr, rfl⟩ := List.mem_map.mp ha
    rfl
  unfold clean_out
  rw [pySplitlines_renderBordered hHc hRc]
  simp only []
  have hfilter : (tableBorder :: renderRowB H :: tableBorder ::
        (R.map renderRowB ++ [tableBorder])).filter
        (fun ln => match pyLStripWs ln with | '|' :: _ => true | _ => false)
      = renderRowB H :: R.map renderRowB := by
    simp only [List.filter_cons, List.filter_append, List.filter_nil]
    rw [if_neg (by decide), if_pos (by rfl), if_neg (by decide), if_neg (by decide), hfR]
    simp
  rw [hfilter]
  rw [if_neg (by simp)]
  rw [List.filterMap_cons, rowCellsOut_renderRowB hHne hHc,
    filterMap_rowCells R hRc hRne]
  simp only []
  rw [if_neg (by
    simp only [List.any_eq_true, not_exists]
    intro r
    simp only [not_and]
    intro hr
    rw [hRl r hr]
    simp)]

/-- Formatted data lines parse back to their rows. -/
theorem forall₂_formattedRows (ws : List Nat) (H : List (List Char))
    (hlen : ws.length = H.length) :
    ∀ (R : List (List (List Char))),
      (∀ r ∈ R, ∀ c ∈ r, cleanCell c = true) →
      (∀ r ∈ R, r ≠ []) →
      (∀ r ∈ R, r.length = H.length) →
      List.Forall₂ (fun d r => isDividerLine d = false ∧ parseDataCells d = r ∧
        r.length = H.length) (R.map (formatRowD ws)) R := by
  intro R
  induction R with
  | nil => intro _ _ _; exact List.Forall₂.nil
  | cons r R ih =>
      intro hc hne hlr
      rw [List.map_cons]
      refine List.Forall₂.cons ⟨?_, ?_, hlr r (by simp)⟩
        (ih (fun x hx => hc x (by simp [hx])) (fun x hx => hne x (by simp [hx]))
          (fun x hx => hlr x (by simp [hx])))
      · exact not_divider_barLine ((List.zipWith dPiece ws r).flatten)
      · exact parseDataCells_formatRowD ws r (by rw [hlen, hlr r (by simp)])
          (hne r (by simp)) (hc r (by simp))

/-- Parsing the re-rendered formatted table recovers the header and the
null-normalized rows. -/
theorem text_to_df_formatted (ws : List Nat) {H : List (List Char)}
    {R : List (List (List Char))}
    (hlen : ws.length = H.length) (hHne : H ≠ []) (hHnd : H.Nodup)
    (hHc : ∀ c ∈ H, cleanCell c = true)
    (hRc : ∀ r ∈ R, ∀ c ∈ r, cleanCell c = true)
    (hRl : ∀ r ∈ R, r.length = H.length) :
    text_to_df (joinLn ([sepLineOut ws, formatRowH ws H, sepLineOut ws] ++
        R.map (formatRowD ws) ++ [sepLineOut ws])) =
      some ⟨H, R.map (fun r => r.map nullNone)⟩ := by
  have hRne : ∀ r ∈ R, r ≠ [] := by
    intro r hr hrnil
    have hlr := hRl r hr
    rw [hrnil] at hlr
    simp at hlr
    exact hHne (List.eq_nil_of_length_eq_zero hlr.symm)
  have hshape : ([sepLineOut ws, formatRowH ws H, sepLineOut ws] ++
      R.map (formatRowD ws) ++ [sepLineOut ws]) = sepLineOut ws :: (formatRowH ws H ::
      sepLineOut ws :: (R.map (formatRowD ws) ++ [sepLineOut ws])) := by
    simp
  have hlineok : ∀ l ∈ sepLineOut ws :: (formatRowH ws H ::
      sepLineOut ws :: (R.map (formatRowD ws) ++ [sepLineOut ws])),
      l ≠ [] ∧ ∀ x ∈ l, isLb x = false := by
    intro l hl
    simp only [List.mem_cons, List.mem_append, List.mem_map, List.mem_singleton,
      List.not_mem_nil, or_false] at hl
    rcases hl with rfl | rfl | rfl | ⟨r, hr, rfl⟩ | rfl
    · exact sepLineOut_line_ok ws
    · exact shapeRow_line_ok (forall₂_hPieces ws H hlen hHc)
    · exact sepLineOut_line_ok ws
    · exact shapeRow_line_ok (forall₂_dPieces ws r
        (by rw [hlen, hRl r hr]) (hRc r hr))
    · exact sepLineOut_line_ok ws
  have hstrip : pyStripWs (joinLn ([sepLineOut ws, formatRowH ws H, sepLineOut ws] ++
      R.map (formatRowD ws) ++ [sepLineOut ws])) =
      joinLn ([sepLineOut ws, formatRowH ws H, sepLineOut ws] ++
        R.map (formatRowD ws) ++ [sepLineOut ws]) := by
    obtain ⟨t, ht⟩ := joinLn_head (sepLineOut ws) (formatRowH ws H ::
      sepLineOut ws :: (R.map (formatRowD ws) ++ [sepLineOut ws]))
    obtain ⟨t2, ht2⟩ := joinLn_last_rev (sepLineOut ws)
      ([sepLineOut ws, formatRowH ws H, sepLineOut ws] ++ R.map (formatRowD ws))
    have hrevne : (sepLineOut ws).reverse ≠ [] := by
      simpa using (sepLineOut_line_ok ws).1
    obtain ⟨x, xs, hx⟩ := List.exists_cons_of_ne_nil hrevne
    have hxmem : x ∈ sepLineOut ws := by
      rw [← List.mem_reverse, hx]
      simp
    have hxws : isPyWs x = false := by
      rcases mem_sepLineOut hxmem with rfl | rfl <;> decide
    apply pyStripP_eq_self
    · rw [hshape, ht]
      rw [show sepLineOut ws ++ t = '+' :: ((ws.map sepPiece).flatten ++ t) from by
        unfold sepLineOut; simp]
      rw [List.dropWhile_cons, if_neg (by decide)]
    · have hshape2 : ([sepLineOut ws, formatRowH ws H, sepLineOut ws] ++
          R.map (formatRowD ws) ++ [sepLineOut ws]) =
          (([sepLineOut ws, formatRowH ws H, sepLineOut ws] ++
            R.map (formatRowD ws)) ++ [sepLineOut ws]) := by
        simp
      rw [hshape2, ht2, hx, List.cons_append, List.dropWhile_cons, if_neg (by simp [hxws])]
  have hsplit : pySplitlines (pyStripWs (joinLn ([sepLineOut ws, formatRowH ws H,
      sepLineOut ws] ++ R.map (formatRowD ws) ++ [sepLineOut ws]))) =
      sepLineOut ws :: formatRowH ws H :: sepLineOut ws ::
        (R.map (formatRowD ws) ++ [sepLineOut ws]) := by
    rw [hstrip, hshape]
    exact pySplitlines_joinLn _ (by simp) hlineok
  exact text_to_df_assembled _ (formatRowH ws H) (sepLineOut ws) (sepLineOut ws)
    (sepLineOut ws) (R.map (formatRowD ws)) H R hsplit
    (isDividerLine_sepLineOut ws) (isDividerLine_sepLineOut ws)
    (isDividerLine_sepLineOut ws)
    (parseHeaderCells_formatRowH ws H hlen hHne hHc)
    hHc hHnd hRc
    (forall₂_formattedRows ws H hlen R hRc hRne hRl)

/-- C1 (amended): for every well-formed bordered table text (modelled per
spec section 3 as the canonical bordered rendering of clean cells) with a
nonempty header `H` of `k` pairwise-distinct column names and data rows of
exactly `k` cells, `text_to_df` returns the dataset with header `H` and
exactly as many rows as the input has data rows (null-normalized), and
re-rendering that same bordered text with `clean_out` and parsing the
rendered result with `text_to_df` yields the same structured dataset
(round-trip).  Without the distinctness hypothesis the property fails: see
the duplicate-header counterexample. -/
theorem text_to_df_clean_out_round_trip {H : List (List Char)}
    {R : List (List (List Char))}
    (hHne : H ≠ []) (hHnd : H.Nodup) (hHc : ∀ c ∈ H, cleanCell c = true)
    (hRc : ∀ r ∈ R, ∀ c ∈ r, cleanCell c = true)
    (hRl : ∀ r ∈ R, r.length = H.length) :
    ∃ rendered : List Char,
      text_to_df (renderBordered H R) = some ⟨H, R.map (fun r => r.map nullNone)⟩ ∧
      (R.map (fun r => r.map nullNone)).length = R.length ∧
      clean_out (renderBordered H R) = some rendered ∧
      text_to_df rendered = text_to_df (renderBordered H R) := by
  refine ⟨_, text_to_df_renderBordered hHne hHnd hHc hRc hRl, by simp,
    clean_out_renderBordered hHne hHc hRc hRl, ?_⟩
  rw [text_to_df_renderBordered hHne hHnd hHc hRc hRl]
  exact text_to_df_formatted ((List.range H.length).map (colWidth H R))
    (by simp) hHne hHnd hHc hRc hRl

/-- Closed instance of the round-trip on a two-column table with one data
row containing a literal None cell. -/
theorem text_to_df_clean_out_round_trip_witness :
    (([['i', 'd'], ['v']] : List (List Char)) ≠ [] ∧
      ([['i', 'd'], ['v']] : List (List Char)).Nodup ∧
      (∀ c ∈ ([['i', 'd'], ['v']] : List (List Char)), cleanCell c = true) ∧
      (∀ r ∈ ([[['1'], ['N', 'o', 'n', 'e']]] : List (List (List Char))),
        ∀ c ∈ r, cleanCell c = true) ∧
      (∀ r ∈ ([[['1'], ['N', 'o', 'n', 'e']]] : List (List (List Char))),
        r.length = ([['i', 'd'], ['v']] : List (List Char)).length)) ∧
    (∃ rendered : List Char,
      text_to_df (renderBordered [['i', 'd'], ['v']] [[['1'], ['N', 'o', 'n', 'e']]]) =
        some ⟨[['i', 'd'], ['v']],
          ([[['1'], ['N', 'o', 'n', 'e']]] : List (List (List Char))).map
            (fun r => r.map nullNone)⟩ ∧
      (([[['1'], ['N', 'o', 'n', 'e']]] : List (List (List Char))).map
          (fun r => r.map nullNone)).length =
        ([[['1'], ['N', 'o', 'n', 'e']]] : List (List (List Char))).length ∧
      clean_out (renderBordered [['i', 'd'], ['v']] [[['1'], ['N', 'o', 'n', 'e']]]) =
        some rendered ∧
      text_to_df rendered =
        text_to_df (renderBordered [['i', 'd'], ['v']] [[['1'], ['N', 'o', 'n', 'e']]])) :=
  ⟨⟨by decide, by decide, by decide, by decide, by decide⟩,
    text_to_df_clean_out_round_trip (by decide) (by decide) (by decide) (by decide)
      (by decide)⟩

/-- C1 (counterexample): header-name uniqueness is not enforced by the
spec's table notion, yet a well-formed bordered table whose two column names
are both the letter a, with one data row of two cells, is not parsed into a
dataset at all: the per-column normalization selects the duplicated label,
`df[col]` is a DataFrame, and `df[col].dtype` (utils.py line 211) raises
AttributeError — so `text_to_df` returns no dataset with that header and row
count, and no round trip takes place. -/
theorem text_to_df_duplicate_header_no_dataset :
    (([['a'], ['a']] : List (List Char)) ≠ [] ∧
      (∀ c ∈ ([['a'], ['a']] : List (List Char)), cleanCell c = true) ∧
      (∀ r ∈ ([[['1'], ['2']]] : List (List (List Char))), ∀ c ∈ r, cleanCell c = true) ∧
      (∀ r ∈ ([[['1'], ['2']]] : List (List (List Char))),
        r.length = ([['a'], ['a']] : List (List Char)).length)) ∧
    text_to_df (renderBordered [['a'], ['a']] [[['1'], ['2']]]) = none :=
  ⟨⟨by decide, by decide, by decide, by decide⟩, by rfl⟩
